import Mathlib

/-!
# Verification of the arena memory allocator in `PA_1_new.cpp`

Shallow embedding of the allocator core: `create_new_arena`, `split_mem_block`,
`merge_free_blocks`, `allocate_memory_block`, `mem_alloc`, `mem_free`,
`mem_realloc`.

Modelling decisions (all taken from the source, `src/PA_1_new.cpp`):

* Addresses are `Nat`; the null pointer is `0`.  `sizeof(MemBlock)` on the
  x64 target is 16 bytes (`size_t` + three `bool`s, padded to the 8-byte
  alignment of `size_t`); this is `headerSize`.
* The C++ code stores block headers inside the arena bytes and keeps
  `std::unordered_map<void*, MemBlock*> block_map` pointing at them.  Every
  header the program ever creates is registered in the map and erased exactly
  when it is absorbed by a merge, so the map *is* the header memory; we model
  it as an association list `BlockMap` from addresses to `MemBlock` records.
* `VirtualAlloc` is an environment choice: each call receives an
  `Option Nat` (`some base` for a successful reservation at `base`, `none`
  for failure).
* `std::unordered_map` iteration order is unspecified; `merge_free_blocks`
  therefore takes the visit order as an explicit `order : List Nat`
  parameter (the C++ pass visits every entry present when the pass starts,
  skipping entries erased mid-pass; erasure never rehashes, and inserted
  entries do not occur during a pass).
* Payload bytes are a total function `Nat → Nat`; `memcpy` overwrites a
  range from a snapshot of the source range (the two ranges never overlap in
  well-formed states).
* Loops (the first-fit scan and the merge-absorb loop) are written with an
  explicit fuel of `m.length + 1`, which is sufficient whenever the scanned
  chain exists in the map (each scan step consumes one distinct map entry);
  running out of fuel, or reading an address that holds no header, aborts the
  scan — those situations are undefined behaviour in the C++ source and are
  unreachable in well-formed states.
* `size_t` overflow is not modelled (`Nat` arithmetic); no claim involves
  sizes near `2^64`.
-/

/-- Value of `sizeof(MemBlock)` on the x64 target: 8 (size_t) + 3 (bools) padded to 16. -/
def headerSize : Nat := 16

/-- Embedding of `struct MemBlock { size_t size; bool free; bool first; bool last; }`. -/
structure MemBlock where
  size : Nat
  free : Bool
  first : Bool
  last : Bool
deriving DecidableEq, Repr

/-- Embedding of `struct MemArena { size_t size; void* base; MemArena* next; }`; the `next`
pointer is represented by the position in the arena list. -/
structure MemArena where
  size : Nat
  base : Nat
deriving DecidableEq, Repr

/-- The block index `std::unordered_map<void*, MemBlock*>` as an association
list from header addresses to header records. -/
abbrev BlockMap := List (Nat × MemBlock)

/-- Embeds `block_map.find(a)`. -/
def lookupB (m : BlockMap) (a : Nat) : Option MemBlock :=
  match m with
  | [] => none
  | (k, b) :: rest => if k = a then some b else lookupB rest a

/-- Embeds `block_map.erase(a)`. -/
def eraseB (m : BlockMap) (a : Nat) : BlockMap :=
  match m with
  | [] => []
  | (k, v) :: rest => if k = a then eraseB rest a else (k, v) :: eraseB rest a

/-- Embeds `block_map[a] = b` (insert-or-assign). -/
def insertB (m : BlockMap) (a : Nat) (b : MemBlock) : BlockMap :=
  (a, b) :: eraseB m a

/-- Mutation of an existing header through a pointer (`block->field = v`);
the map keeps referring to the same (now updated) header. -/
def setB (m : BlockMap) (a : Nat) (b : MemBlock) : BlockMap :=
  match m with
  | [] => []
  | (k, v) :: rest => if k = a then (a, b) :: setB rest a b else (k, v) :: setB rest a b

/-- The set of registered header addresses. -/
def keysOf (m : BlockMap) : List Nat :=
  match m with
  | [] => []
  | (k, _) :: rest => k :: keysOf rest

/-- Number of entries (used as loop fuel). -/
def lengthB (m : BlockMap) : Nat :=
  List.length m

/-- The global allocator state: `arena_list` (head = newest), `block_map`,
and the payload byte contents of the arena memory. -/
structure AllocState where
  arena_list : List MemArena
  block_map : BlockMap
  mem : Nat → Nat

/-- Source constant `size_t default_arena_size = 4096;` -/
def default_arena_size : Nat := 4096

/-- Embeds `align_mem_size(size) = (size + 3) & ~3` (round up to a multiple of 4). -/
def align_mem_size (size : Nat) : Nat :=
  (size + 3) / 4 * 4

/-- Embeds `memcpy(dst, src, n)` on the payload byte store (source snapshot). -/
def memcpy (mem : Nat → Nat) (dst src n : Nat) : Nat → Nat :=
  fun a => if dst ≤ a ∧ a < dst + n then mem (src + (a - dst)) else mem a

/-- Embeds `create_new_arena(size, default_size, arena_list, block_map)`:
rounds the size up, asks the OS for a region (`osBase`), seeds it with one
full-arena free block and prepends the arena to the list.  Returns the new
arena (or `none` when `VirtualAlloc` fails) together with the updated arena
list and block map. -/
def create_new_arena (osBase : Option Nat) (size default_size : Nat)
    (al : List MemArena) (m : BlockMap) :
    Option MemArena × List MemArena × BlockMap :=
  let sz := align_mem_size (max size default_size)
  match osBase with
  | none => (none, al, m)
  | some base =>
    let arena : MemArena := ⟨sz, base⟩
    let initial : MemBlock := ⟨sz - headerSize, true, true, true⟩
    (some arena, arena :: al, insertB m base initial)

/-- Embeds `split_mem_block(block, size, block_map)` where `addr` is the address of
`block`.  Carves a free remainder block when it would have at least 4 payload
bytes, otherwise leaves the block oversized. -/
def split_mem_block (m : BlockMap) (addr size : Nat) : BlockMap :=
  let sz := align_mem_size size
  match lookupB m addr with
  | none => m
  | some blk =>
    if sz + headerSize + 4 ≤ blk.size then
      let newAddr := addr + headerSize + sz
      let newBlk : MemBlock := ⟨blk.size - sz - headerSize, true, false, blk.last⟩
      insertB (setB m addr { blk with size := sz, last := false }) newAddr newBlk
    else m

/-- The `continue`-loop of `merge_free_blocks` at one map entry `a`: while the
block at `a` is free and the block starting right after its payload is a
registered free block, absorb that successor.  `fuel ≥ lengthB m + 1` always
suffices because every absorption erases one entry. -/
def absorbLoop : Nat → Nat → BlockMap → BlockMap
  | 0, _, m => m
  | fuel + 1, a, m =>
    match lookupB m a with
    | none => m
    | some blk =>
      if blk.free then
        let nextA := a + headerSize + blk.size
        match lookupB m nextA with
        | some nb =>
          if nb.free then
            absorbLoop fuel a
              (eraseB (setB m a { blk with size := blk.size + headerSize + nb.size,
                                           last := nb.last }) nextA)
          else m
        | none => m
      else m

/-- Embeds `merge_free_blocks(block_map)`: one pass over the map entries in the
(unspecified) iteration order `order`; entries erased before being reached
are skipped, which `absorbLoop`'s `lookupB` check reproduces. -/
def merge_free_blocks (order : List Nat) (m : BlockMap) : BlockMap :=
  match order with
  | [] => m
  | a :: rest => merge_free_blocks rest (absorbLoop (lengthB m + 1) a m)

/-- Embeds `block->free = false` after a successful fit (re-reads the header that
`split_mem_block` may have shrunk). -/
def markUsed (m : BlockMap) (a : Nat) : BlockMap :=
  match lookupB m a with
  | some b => setB m a { b with free := false }
  | none => m

/-- The scan loop of `allocate_memory_block`: step through the arena's
blocks from `base` until a free block of at least `size` payload bytes is
found (split it, mark it used, return its payload address) or the scan
passes `endAddr`. -/
def allocLoop : Nat → Nat → Nat → Nat → BlockMap → Option Nat × BlockMap
  | 0, _, _, _, m => (none, m)
  | fuel + 1, endAddr, base, size, m =>
    if base < endAddr then
      match lookupB m base with
      | none => (none, m)
      | some blk =>
        if blk.free = true ∧ size ≤ blk.size then
          (some (base + headerSize), markUsed (split_mem_block m base size) base)
        else
          allocLoop fuel endAddr (base + headerSize + blk.size) size m
    else (none, m)

/-- Embeds `allocate_memory_block(arena, size, block_map)`. -/
def allocate_memory_block (arena : MemArena) (size : Nat) (m : BlockMap) :
    Option Nat × BlockMap :=
  let sz := align_mem_size size
  allocLoop (lengthB m + 1) (arena.base + arena.size) arena.base sz m

/-- The `for (arena = arena_list; arena; arena = arena->next)` loop of
`mem_alloc`. -/
def allocInArenas : List MemArena → Nat → BlockMap → Option Nat × BlockMap
  | [], _, m => (none, m)
  | ar :: rest, sz, m =>
    match allocate_memory_block ar sz m with
    | (some p, m') => (some p, m')
    | (none, m') => allocInArenas rest sz m'

/-- Embeds `mem_alloc(size)`.  `osBase` is what `VirtualAlloc` would return if a new
arena has to be created during this call. -/
def mem_alloc (osBase : Option Nat) (size : Nat) (s : AllocState) :
    Option Nat × AllocState :=
  if size = 0 then (none, s)
  else
    let sz := align_mem_size size
    match allocInArenas s.arena_list sz s.block_map with
    | (some p, m') => (some p, { s with block_map := m' })
    | (none, _) =>
      match create_new_arena osBase (sz + headerSize) default_arena_size
          s.arena_list s.block_map with
      | (none, al', m') => (none, { s with arena_list := al', block_map := m' })
      | (some arena, al', m') =>
        match allocate_memory_block arena sz m' with
        | (p, m'') => (p, { s with arena_list := al', block_map := m'' })

/-- Embeds `mem_free(ptr)`.  `order` is the iteration order of the merge pass. -/
def mem_free (order : List Nat) (ptr : Nat) (s : AllocState) : AllocState :=
  if ptr = 0 then s
  else
    match lookupB s.block_map (ptr - headerSize) with
    | none => s
    | some blk =>
      let m₁ := setB s.block_map (ptr - headerSize) { blk with free := true }
      { s with block_map := merge_free_blocks order m₁ }

/-- Embeds `mem_realloc(ptr, size)`. -/
def mem_realloc (osBase : Option Nat) (order : List Nat) (ptr size : Nat)
    (s : AllocState) : Option Nat × AllocState :=
  if ptr = 0 then mem_alloc osBase size s
  else
    let sz := align_mem_size size
    match lookupB s.block_map (ptr - headerSize) with
    | none => (none, s)
    | some blk =>
      if sz ≤ blk.size then
        (some ptr, { s with block_map := split_mem_block s.block_map (ptr - headerSize) sz })
      else
        match mem_alloc osBase sz s with
        | (none, s₁) => (none, s₁)
        | (some newPtr, s₁) =>
          let s₂ := { s₁ with mem := memcpy s₁.mem newPtr ptr blk.size }
          (some newPtr, mem_free order ptr s₂)

/-! ## Environment validity, reachability and claim-level predicates -/

/-- Validity of one `VirtualAlloc` outcome: a successful reservation is
nonzero, 4-byte aligned (real `VirtualAlloc` results are page aligned), and
its closed interval of `asz` bytes is disjoint from every existing arena's
closed interval (so no two arenas are address-adjacent). -/
def osOk (os : Option Nat) (asz : Nat) (al : List MemArena) : Bool :=
  match os with
  | none => true
  | some b => (b != 0) && (b % 4 == 0) &&
      al.all (fun ar => decide (b + asz < ar.base) || decide (ar.base + ar.size < b))

/-- The size of the arena `create_new_arena` would build for an allocation
request of `n` payload bytes (`mem_alloc` passes `align(n) + header`). -/
def arenaSizeFor (n : Nat) : Nat :=
  align_mem_size (max (align_mem_size n + headerSize) default_arena_size)

/-- States reachable from the empty allocator by `mem_alloc`, `mem_free` and
`mem_realloc`, with every successful OS reservation separated from the
existing arenas.  The merge-pass iteration orders are arbitrary. -/
inductive Reachable : AllocState → Prop where
  | init (mem0 : Nat → Nat) : Reachable ⟨[], [], mem0⟩
  | step_alloc {s : AllocState} (os : Option Nat) (n : Nat) :
      Reachable s → osOk os (arenaSizeFor n) s.arena_list = true →
      Reachable (mem_alloc os n s).2
  | step_free {s : AllocState} (order : List Nat) (ptr : Nat) :
      Reachable s → Reachable (mem_free order ptr s)
  | step_realloc {s : AllocState} (os : Option Nat) (order : List Nat) (ptr n : Nat) :
      Reachable s → osOk os (arenaSizeFor n) s.arena_list = true →
      Reachable (mem_realloc os order ptr n s).2

/-- Sum of `header_size + block.size` over all indexed blocks whose header
lies inside the arena (claim C1's partition sum). -/
def sumInArena (ar : MemArena) (m : BlockMap) : Nat :=
  ((m.filter (fun p => decide (ar.base ≤ p.1 ∧ p.1 < ar.base + ar.size))).map
    (fun p => headerSize + p.2.size)).sum

/-- The index holds a free block at address `x`. -/
def freePresent (m : BlockMap) (x : Nat) : Prop :=
  ∃ b, lookupB m x = some b ∧ b.free = true

/-- No free block is immediately followed by another free block (claim C3's
coalescing completeness). -/
def noAdjFree (m : BlockMap) : Prop :=
  ∀ a ba, lookupB m a = some ba → ba.free = true →
    ¬ freePresent m (a + headerSize + ba.size)

/-- Predicate that `x` lies inside arena `ar`. -/
def inArena (ar : MemArena) (x : Nat) : Prop :=
  ar.base ≤ x ∧ x < ar.base + ar.size

/-! ## Arena block chains

A `Chain m endAddr addr l` witnesses that, starting at `addr` and stepping by
`headerSize + block.size`, the registered headers tile `[addr, endAddr)`
exactly, with 4-byte-aligned sizes and a correct `last` flag; `l` is the list
of the block addresses encountered.  This is the well-formedness invariant
of one arena's memory (the layout `mem_show` walks). -/

inductive Chain (m : BlockMap) (endAddr : Nat) : Nat → List Nat → Prop where
  | nil : Chain m endAddr endAddr []
  | cons {addr : Nat} {b : MemBlock} {rest : List Nat} :
      lookupB m addr = some b →
      addr < endAddr →
      b.size % 4 = 0 →
      (b.last = true ↔ addr + headerSize + b.size = endAddr) →
      Chain m endAddr (addr + headerSize + b.size) rest →
      Chain m endAddr addr (addr :: rest)
/-- Two optional headers that agree on `size` and `last` (the fields `Chain`
constrains); changing only the `free` flag preserves it. -/
def sameSL : Option MemBlock → Option MemBlock → Prop
  | none, none => True
  | some a, some b => a.size = b.size ∧ a.last = b.last
  | none, some _ => False
  | some _, none => False
/-- The footprint `header_size + block.size` of the block registered at `x`. -/
def footB (m : BlockMap) (x : Nat) : Nat :=
  headerSize + Option.elim (lookupB m x) 0 MemBlock.size

/-- The total footprint of a list of block addresses. -/
def sumFoot (m : BlockMap) (l : List Nat) : Nat :=
  (List.map (footB m) l).sum
/-- Two arenas are separated when even their closed address intervals are
disjoint; in particular no arena starts exactly at another arena's end.
All claims about multi-arena states are relative to the OS returning
separated regions; `VirtualAlloc` may legally return address-adjacent
regions, and the counterexamples below show what happens then. -/
def Separated (a b : MemArena) : Prop :=
  a.base + a.size < b.base ∨ b.base + b.size < a.base
/-- Well-formedness of an arena list together with the block index:
unique header addresses; arenas have nonzero 4-aligned bases and 4-aligned
sizes; every arena is exactly tiled by a chain of registered blocks; every
registered block lies on the chain of one of the arenas; and the arenas are
pairwise separated. -/
structure WFS (al : List MemArena) (m : BlockMap) : Prop where
  nodup : (keysOf m).Nodup
  arOk : ∀ ar ∈ al, ar.base ≠ 0 ∧ ar.base % 4 = 0 ∧ ar.size % 4 = 0
  chains : ∀ ar ∈ al, ∃ l, Chain m (ar.base + ar.size) ar.base l
  covered : ∀ x ∈ keysOf m, ∃ ar, ar ∈ al ∧ ∃ l,
    Chain m (ar.base + ar.size) ar.base l ∧ x ∈ l
  sep : al.Pairwise Separated

/-- Well-formedness of a whole allocator state. -/
def WF (s : AllocState) : Prop := WFS s.arena_list s.block_map
/-- Invariant of the merge pass: every already-visited entry that is still a
registered free block has no registered free successor. -/
def mergeInv (m : BlockMap) (visited : List Nat) : Prop :=
  ∀ a ∈ visited, ∀ ba, lookupB m a = some ba → ba.free = true →
    ¬ freePresent m (a + headerSize + ba.size)

/-! ### An executable well-formedness checker (used to discharge
well-formedness of concrete states by computation). -/

/-- Computes the chain of block addresses tiling `[addr, e)`, checking
alignment and the `last` flag along the way. -/
def chainList : Nat → BlockMap → Nat → Nat → Option (List Nat)
  | 0, _, _, _ => none
  | fuel + 1, m, addr, e =>
    if addr = e then some []
    else if e < addr then none
    else match lookupB m addr with
      | none => none
      | some b =>
        if b.size % 4 == 0 && (b.last == decide (addr + headerSize + b.size = e)) then
          Option.map (fun l => addr :: l) (chainList fuel m (addr + headerSize + b.size) e)
        else none

/-- Executable check of the per-arena conditions of `WFS`. -/
def arenaOkB (ar : MemArena) : Bool :=
  (ar.base != 0) && (ar.base % 4 == 0) && (ar.size % 4 == 0)

/-- Executable check of `Separated`. -/
def sepB (a b : MemArena) : Bool :=
  decide (a.base + a.size < b.base) || decide (b.base + b.size < a.base)

/-- Executable check of pairwise separation. -/
def pairwiseSepB : List MemArena → Bool
  | [] => true
  | a :: rest => rest.all (sepB a) && pairwiseSepB rest

/-- Executable well-formedness check; `wfCheck_sound` below shows it implies
`WFS`. -/
def wfCheck (al : List MemArena) (m : BlockMap) : Bool :=
  decide ((keysOf m).Nodup) &&
  al.all arenaOkB &&
  pairwiseSepB al &&
  al.all (fun ar => (chainList (lengthB m + 1) m ar.base (ar.base + ar.size)).isSome) &&
  (keysOf m).all (fun x => al.any (fun ar =>
    match chainList (lengthB m + 1) m ar.base (ar.base + ar.size) with
    | some l => decide (x ∈ l)
    | none => false))

/-! ### Concrete executions used as counterexamples and witnesses

`VirtualAlloc` returns page-aligned regions; `65536` and `69632 = 65536 +
4096` are two page-aligned, disjoint — but address-adjacent — regions, a
perfectly legal pair of OS responses. -/

/-- The initial allocator state (no arenas, empty index, zeroed memory). -/
def initState : AllocState := ⟨[], [], fun _ => 0⟩

/-- Trace step `mem_alloc(4064)` in the empty state; fills one whole 4096-byte arena at
`65536` (payload `65552`, block size `4080`, no split). -/
def advS1 : AllocState := (mem_alloc (some 65536) 4064 initState).2

/-- Second `mem_alloc(4064)`; the OS returns the address-adjacent region
`69632` (payload `69648`). -/
def advS2 : AllocState := (mem_alloc (some 69632) 4064 advS1).2

/-- Trace step `mem_free(65552)`: arena 1's block becomes free; no merge fires because
arena 2's block is still in use. -/
def advS3 : AllocState := mem_free [69632, 65536] 65552 advS2

/-- Trace step `mem_free(69648)`: arena 2's block becomes free and the merge pass lets
arena 1's `last`-flagged block absorb it across the arena boundary. -/
def advS4 : AllocState := mem_free [69632, 65536] 69648 advS3

/-- Trace step `mem_alloc(100)` in the empty state: block of size 100 at `65536`
(payload `65552`), free remainder of size 3964 at `65652`. -/
def allocS100 : AllocState := (mem_alloc (some 65536) 100 initState).2

/-- Trace step `mem_realloc(65552, 4)` on `allocS100`: the in-place shrink carves a free
block of size 80 at `65556`, address-adjacent to the free block at `65652`. -/
def shrinkS : AllocState := (mem_realloc none [] 65552 4 allocS100).2

/-- Trace step `mem_free(null)` on `shrinkS`: a no-op release; the adjacent free pair
survives because no merge pass runs. -/
def shrinkFreedS : AllocState := mem_free [65652, 65536, 65556] 0 shrinkS

/-- Trace step `mem_alloc(200)` on `allocS100`: block of size 200 at `65652`
(payload `65668`), free remainder at `65868`. -/
def fitS2 : AllocState := (mem_alloc none 200 allocS100).2

/-- Trace step `mem_free(65668)`: the freed 200-byte block merges with the remainder,
leaving `[used 100 @65536][free 3964 @65652]` — ample room right after the
100-byte block. -/
def fitS3 : AllocState := mem_free [65868, 65652, 65536] 65668 fitS2

/-- Trace step `mem_alloc(50)` in a state whose payload bytes hold the pattern
`a ↦ a % 251`: block of size 52 at `65536` (payload `65552`). -/
def patS1 : AllocState := (mem_alloc (some 65536) 50 (⟨[], [], fun a => a % 251⟩ : AllocState)).2

/-- Trace step `mem_alloc(4)` in the empty state: block of size 4 at `65536`
(payload `65552`). -/
def tinyS : AllocState := (mem_alloc (some 65536) 4 initState).2

/-! ## Lemmas about the block index operations -/

theorem lookupB_eq_some_mem {m : BlockMap} {a : Nat} {b : MemBlock}
    (h : lookupB m a = some b) : (a, b) ∈ m := by
  induction m with
  | nil => simp [lookupB] at h
  | cons p rest ih =>
    obtain ⟨k, v⟩ := p
    by_cases hk : k = a
    · subst hk
      simp [lookupB] at h
      simp [h]
    · simp only [lookupB, if_neg hk] at h
      exact List.mem_cons_of_mem _ (ih h)

theorem mem_keysOf_of_lookupB {m : BlockMap} {a : Nat} {b : MemBlock}
    (h : lookupB m a = some b) : a ∈ keysOf m := by
  induction m with
  | nil => simp [lookupB] at h
  | cons p rest ih =>
    obtain ⟨k, v⟩ := p
    by_cases hk : k = a
    · subst hk; simp [keysOf]
    · simp only [lookupB, if_neg hk] at h
      simp [keysOf, ih h]

theorem lookupB_isSome_of_mem_keys {m : BlockMap} {a : Nat}
    (h : a ∈ keysOf m) : (lookupB m a).isSome := by
  induction m with
  | nil => simp [keysOf] at h
  | cons p rest ih =>
    obtain ⟨k, v⟩ := p
    by_cases hk : k = a
    · subst hk; simp [lookupB]
    · simp only [keysOf, List.mem_cons] at h
      rcases h with h | h
      · exact absurd h.symm hk
      · simpa [lookupB, if_neg hk] using ih h

theorem lookupB_eq_none_of_not_mem {m : BlockMap} {a : Nat}
    (h : a ∉ keysOf m) : lookupB m a = none := by
  cases hl : lookupB m a with
  | none => rfl
  | some b => exact absurd (mem_keysOf_of_lookupB hl) h

theorem not_mem_keys_of_lookupB_none {m : BlockMap} {a : Nat}
    (h : lookupB m a = none) : a ∉ keysOf m := by
  intro hmem
  have := lookupB_isSome_of_mem_keys (m := m) hmem
  rw [h] at this
  simp at this

theorem lookupB_eraseB {m : BlockMap} {a x : Nat} :
    lookupB (eraseB m a) x = if x = a then none else lookupB m x := by
  induction m with
  | nil => simp [eraseB, lookupB]
  | cons p rest ih =>
    obtain ⟨k, v⟩ := p
    by_cases hk : k = a
    · subst hk
      have h1 : eraseB ((k, v) :: rest) k = eraseB rest k := by simp [eraseB]
      rw [h1, ih]
      by_cases hx : x = k
      · simp [hx]
      · have hkx : ¬ k = x := fun hh => hx hh.symm
        simp [lookupB, hx, hkx]
    · have h1 : eraseB ((k, v) :: rest) a = (k, v) :: eraseB rest a := by
        simp [eraseB, hk]
      rw [h1]
      by_cases hx : k = x
      · subst hx
        simp [lookupB, hk]
      · simp [lookupB, hx, ih]

theorem eraseB_eq_of_not_mem {m : BlockMap} {a : Nat} (h : a ∉ keysOf m) :
    eraseB m a = m := by
  induction m with
  | nil => rfl
  | cons p rest ih =>
    obtain ⟨k, v⟩ := p
    simp only [keysOf, List.mem_cons] at h
    push_neg at h
    obtain ⟨h1, h2⟩ := h
    have hk : ¬ k = a := fun hh => h1 hh.symm
    simp [eraseB, hk, ih h2]

theorem lookupB_insertB {m : BlockMap} {a x : Nat} {b : MemBlock} :
    lookupB (insertB m a b) x = if x = a then some b else lookupB m x := by
  by_cases hx : x = a
  · subst hx; simp [insertB, lookupB]
  · have hax : ¬ a = x := fun hh => hx hh.symm
    simp only [insertB, lookupB, if_neg hax, if_neg hx]
    rw [lookupB_eraseB, if_neg hx]

theorem lookupB_setB_ne {m : BlockMap} {a x : Nat} {b : MemBlock} (h : x ≠ a) :
    lookupB (setB m a b) x = lookupB m x := by
  induction m with
  | nil => rfl
  | cons p rest ih =>
    obtain ⟨k, v⟩ := p
    by_cases hk : k = a
    · subst hk
      have hkx : ¬ k = x := fun hh => h hh.symm
      simp [setB, lookupB, hkx, ih]
    · have h1 : setB ((k, v) :: rest) a b = (k, v) :: setB rest a b := by
        simp [setB, hk]
      rw [h1]
      by_cases hx : k = x
      · subst hx; simp [lookupB]
      · simp [lookupB, hx, ih]

theorem lookupB_setB_self {m : BlockMap} {a : Nat} {b b₀ : MemBlock}
    (h : lookupB m a = some b₀) : lookupB (setB m a b) a = some b := by
  induction m with
  | nil => simp [lookupB] at h
  | cons p rest ih =>
    obtain ⟨k, v⟩ := p
    by_cases hk : k = a
    · subst hk; simp [setB, lookupB]
    · simp only [lookupB, if_neg hk] at h
      simp [setB, lookupB, hk, ih h]

theorem keysOf_setB {m : BlockMap} {a : Nat} {b : MemBlock} :
    keysOf (setB m a b) = keysOf m := by
  induction m with
  | nil => rfl
  | cons p rest ih =>
    obtain ⟨k, v⟩ := p
    by_cases hk : k = a
    · subst hk; simp [setB, keysOf, ih]
    · simp [setB, keysOf, hk, ih]

theorem mem_keys_eraseB {m : BlockMap} {a x : Nat} :
    x ∈ keysOf (eraseB m a) ↔ x ∈ keysOf m ∧ x ≠ a := by
  induction m with
  | nil => simp [eraseB, keysOf]
  | cons p rest ih =>
    obtain ⟨k, v⟩ := p
    by_cases hk : k = a
    · subst hk
      have h1 : eraseB ((k, v) :: rest) k = eraseB rest k := by simp [eraseB]
      rw [h1, ih]
      simp only [keysOf, List.mem_cons]
      constructor
      · rintro ⟨h1, h2⟩; exact ⟨Or.inr h1, h2⟩
      · rintro ⟨h1 | h1, h2⟩
        · exact absurd h1 h2
        · exact ⟨h1, h2⟩
    · have h1 : eraseB ((k, v) :: rest) a = (k, v) :: eraseB rest a := by
        simp [eraseB, hk]
      rw [h1]
      simp only [keysOf, List.mem_cons, ih]
      constructor
      · rintro (h | ⟨h1, h2⟩)
        · exact ⟨Or.inl h, by rw [h]; exact hk⟩
        · exact ⟨Or.inr h1, h2⟩
      · rintro ⟨h1 | h1, h2⟩
        · exact Or.inl h1
        · exact Or.inr ⟨h1, h2⟩

theorem keysOf_insertB {m : BlockMap} {a : Nat} {b : MemBlock} :
    keysOf (insertB m a b) = a :: keysOf (eraseB m a) := rfl

theorem mem_keys_insertB {m : BlockMap} {a x : Nat} {b : MemBlock} :
    x ∈ keysOf (insertB m a b) ↔ x = a ∨ x ∈ keysOf m := by
  rw [keysOf_insertB]
  simp only [List.mem_cons, mem_keys_eraseB]
  constructor
  · rintro (h | ⟨h1, _⟩)
    · exact Or.inl h
    · exact Or.inr h1
  · rintro (h | h)
    · exact Or.inl h
    · by_cases hx : x = a
      · exact Or.inl hx
      · exact Or.inr ⟨h, hx⟩

theorem nodup_keys_eraseB {m : BlockMap} {a : Nat} (h : (keysOf m).Nodup) :
    (keysOf (eraseB m a)).Nodup := by
  induction m with
  | nil => simp [eraseB, keysOf]
  | cons p rest ih =>
    obtain ⟨k, v⟩ := p
    simp only [keysOf, List.nodup_cons] at h
    by_cases hk : k = a
    · subst hk; simpa [eraseB] using ih h.2
    · simp only [eraseB, if_neg hk, keysOf, List.nodup_cons]
      exact ⟨fun hmem => h.1 (mem_keys_eraseB.1 hmem).1, ih h.2⟩

theorem nodup_keys_insertB {m : BlockMap} {a : Nat} {b : MemBlock}
    (h : (keysOf m).Nodup) : (keysOf (insertB m a b)).Nodup := by
  rw [keysOf_insertB]
  refine List.nodup_cons.2 ⟨?_, nodup_keys_eraseB h⟩
  rw [mem_keys_eraseB]
  simp

theorem nodup_keys_setB {m : BlockMap} {a : Nat} {b : MemBlock}
    (h : (keysOf m).Nodup) : (keysOf (setB m a b)).Nodup := by
  rw [keysOf_setB]; exact h

theorem lengthB_setB {m : BlockMap} {a : Nat} {b : MemBlock} :
    lengthB (setB m a b) = lengthB m := by
  induction m with
  | nil => rfl
  | cons p rest ih =>
    obtain ⟨k, v⟩ := p
    by_cases hk : k = a <;> simp [setB, lengthB, hk] <;>
      simpa [lengthB] using ih

theorem lengthB_eraseB_le {m : BlockMap} {a : Nat} :
    lengthB (eraseB m a) ≤ lengthB m := by
  induction m with
  | nil => exact Nat.le_refl _
  | cons p rest ih =>
    obtain ⟨k, v⟩ := p
    by_cases hk : k = a
    · subst hk
      simp only [eraseB, if_pos rfl, lengthB, List.length_cons]
      exact Nat.le_succ_of_le ih
    · simp only [eraseB, if_neg hk, lengthB, List.length_cons]
      exact Nat.succ_le_succ ih

theorem lengthB_eraseB_lt {m : BlockMap} {a : Nat} (h : a ∈ keysOf m) :
    lengthB (eraseB m a) < lengthB m := by
  induction m with
  | nil => simp [keysOf] at h
  | cons p rest ih =>
    obtain ⟨k, v⟩ := p
    by_cases hk : k = a
    · subst hk
      simp only [eraseB, if_pos rfl, lengthB, List.length_cons]
      exact Nat.lt_succ_of_le lengthB_eraseB_le
    · simp only [keysOf, List.mem_cons] at h
      rcases h with h | h
      · exact absurd h.symm hk
      · simp only [eraseB, if_neg hk, lengthB, List.length_cons]
        exact Nat.succ_lt_succ (ih h)

theorem Chain.congr {m m' : BlockMap} {e a : Nat} {l : List Nat}
    (h : Chain m e a l) (hagree : ∀ x ∈ l, lookupB m' x = lookupB m x) :
    Chain m' e a l := by
  induction h with
  | nil => exact Chain.nil
  | cons hlk hlt hsz hlast hrest ih =>
    exact Chain.cons ((hagree _ (List.mem_cons_self _ _)).trans hlk) hlt hsz hlast
      (ih fun x hx => hagree x (List.mem_cons_of_mem _ hx))

theorem Chain.congrSL {m m' : BlockMap} {e a : Nat} {l : List Nat}
    (h : Chain m e a l) (hagree : ∀ x ∈ l, sameSL (lookupB m' x) (lookupB m x)) :
    Chain m' e a l := by
  induction h with
  | nil => exact Chain.nil
  | cons hlk hlt hsz hlast hrest ih =>
    rename_i addr b rest
    have hx := hagree addr (List.mem_cons_self _ _)
    rw [hlk] at hx
    cases hlk2 : lookupB m' addr with
    | none => rw [hlk2] at hx; exact absurd hx (by simp [sameSL])
    | some b2 =>
      rw [hlk2] at hx
      obtain ⟨hsz2, hlast2⟩ := hx
      refine Chain.cons hlk2 hlt (by rw [hsz2]; exact hsz) ?_ ?_
      · rw [hlast2, hsz2]; exact hlast
      · rw [hsz2]
        exact ih fun x hxx => hagree x (List.mem_cons_of_mem _ hxx)

theorem Chain.start_le {m : BlockMap} {e a : Nat} {l : List Nat}
    (h : Chain m e a l) : a ≤ e := by
  cases h with
  | nil => exact Nat.le_refl _
  | cons _ hlt _ _ _ => exact Nat.le_of_lt hlt

theorem Chain.mem_bounds {m : BlockMap} {e a : Nat} {l : List Nat}
    (h : Chain m e a l) : ∀ x ∈ l, a ≤ x ∧ x < e := by
  induction h with
  | nil => intro x hx; simp at hx
  | cons hlk hlt hsz hlast hrest ih =>
    intro x hx
    rcases List.mem_cons.1 hx with hx | hx
    · subst hx; exact ⟨Nat.le_refl _, hlt⟩
    · have := ih x hx
      exact ⟨by omega, this.2⟩

theorem Chain.mem_keys {m : BlockMap} {e a : Nat} {l : List Nat}
    (h : Chain m e a l) : ∀ x ∈ l, x ∈ keysOf m := by
  induction h with
  | nil => intro x hx; simp at hx
  | cons hlk hlt hsz hlast hrest ih =>
    intro x hx
    rcases List.mem_cons.1 hx with hx | hx
    · subst hx; exact mem_keysOf_of_lookupB hlk
    · exact ih x hx

theorem Chain.lookup_of_mem {m : BlockMap} {e a : Nat} {l : List Nat}
    (h : Chain m e a l) : ∀ x ∈ l, ∃ bx, lookupB m x = some bx := by
  induction h with
  | nil => intro x hx; simp at hx
  | cons hlk hlt hsz hlast hrest ih =>
    intro x hx
    rcases List.mem_cons.1 hx with hx | hx
    · subst hx; exact ⟨_, hlk⟩
    · exact ih x hx

theorem Chain.footEnd_le {m : BlockMap} {e a : Nat} {l : List Nat}
    (h : Chain m e a l) : ∀ {x bx}, x ∈ l → lookupB m x = some bx →
    x + headerSize + bx.size ≤ e := by
  induction h with
  | nil => intro x bx hx; simp at hx
  | cons hlk hlt hsz hlast hrest ih =>
    intro x bx hx hlkx
    rcases List.mem_cons.1 hx with hx | hx
    · subst hx
      rw [hlk] at hlkx
      cases hlkx
      exact hrest.start_le
    · exact ih hx hlkx

theorem Chain.nodup {m : BlockMap} {e a : Nat} {l : List Nat}
    (h : Chain m e a l) : l.Nodup := by
  induction h with
  | nil => exact List.nodup_nil
  | cons hlk hlt hsz hlast hrest ih =>
    refine List.nodup_cons.2 ⟨fun hmem => ?_, ih⟩
    have := hrest.mem_bounds _ hmem
    have h16 : headerSize = 16 := rfl
    omega

theorem Chain.align {m : BlockMap} {e a : Nat} {l : List Nat}
    (h : Chain m e a l) : ∀ x ∈ l, x % 4 = a % 4 := by
  induction h with
  | nil => intro x hx; simp at hx
  | cons hlk hlt hsz hlast hrest ih =>
    intro x hx
    rcases List.mem_cons.1 hx with hx | hx
    · subst hx; rfl
    · have h16 : headerSize = 16 := rfl
      have := ih x hx
      omega

theorem Chain.telescope {m : BlockMap} {e a : Nat} {l : List Nat}
    (h : Chain m e a l) : a + sumFoot m l = e := by
  induction h with
  | nil => simp [sumFoot]
  | cons hlk hlt hsz hlast hrest ih =>
    rename_i addr b rest
    have hfoot : footB m addr = headerSize + b.size := by simp [footB, hlk]
    simp only [sumFoot, List.map_cons, List.sum_cons] at ih ⊢
    omega

theorem Chain.disjoint_foot {m : BlockMap} {e a : Nat} {l : List Nat}
    (h : Chain m e a l) : ∀ {x y bx byy}, x ∈ l → y ∈ l → x ≠ y →
    lookupB m x = some bx → lookupB m y = some byy →
    x + headerSize + bx.size ≤ y ∨ y + headerSize + byy.size ≤ x := by
  induction h with
  | nil => intro x y bx byy hx; simp at hx
  | cons hlk hlt hsz hlast hrest ih =>
    intro x y bx byy hx hy hne hlkx hlky
    rcases List.mem_cons.1 hx with hx1 | hx1
    · rcases List.mem_cons.1 hy with hy1 | hy1
      · exact absurd (hx1.trans hy1.symm) hne
      · subst hx1
        rw [hlk] at hlkx
        cases hlkx
        exact Or.inl (hrest.mem_bounds _ hy1).1
    · rcases List.mem_cons.1 hy with hy1 | hy1
      · subst hy1
        rw [hlk] at hlky
        cases hlky
        exact Or.inr (hrest.mem_bounds _ hx1).1
      · exact ih hx1 hy1 hne hlkx hlky

theorem Chain.unique {m : BlockMap} {e : Nat} {a : Nat} {l₁ l₂ : List Nat}
    (h1 : Chain m e a l₁) (h2 : Chain m e a l₂) : l₁ = l₂ := by
  induction h1 generalizing l₂ with
  | nil =>
    cases h2 with
    | nil => rfl
    | cons hlk hlt _ _ _ => exact absurd hlt (lt_irrefl _)
  | cons hlk hlt hsz hlast hrest ih =>
    cases h2 with
    | nil => exact absurd hlt (lt_irrefl _)
    | cons hlk2 hlt2 hsz2 hlast2 hrest2 =>
      have hb := hlk.symm.trans hlk2
      cases hb
      rw [ih hrest2]

/-! ## Alignment arithmetic -/

theorem align_mod4 (n : Nat) : align_mem_size n % 4 = 0 := by
  unfold align_mem_size; omega

theorem align_ge (n : Nat) : n ≤ align_mem_size n := by
  unfold align_mem_size; omega

theorem align_eq_of_mod4 {n : Nat} (h : n % 4 = 0) : align_mem_size n = n := by
  unfold align_mem_size; omega

theorem align_idem (n : Nat) : align_mem_size (align_mem_size n) = align_mem_size n :=
  align_eq_of_mod4 (align_mod4 n)

/-! ## Well-formed allocator states -/

theorem separated_symmetric : Symmetric Separated :=
  fun _ _ h => h.elim Or.inr Or.inl

theorem WFS.sep_of_mem_ne {al : List MemArena} {m : BlockMap} (h : WFS al m)
    {ar₁ ar₂ : MemArena} (h1 : ar₁ ∈ al) (h2 : ar₂ ∈ al) (hne : ar₁ ≠ ar₂) :
    Separated ar₁ ar₂ :=
  h.sep.forall separated_symmetric h1 h2 hne

theorem WFS.block_in_arena {al : List MemArena} {m : BlockMap} (h : WFS al m)
    {x : Nat} {bx : MemBlock} (hlk : lookupB m x = some bx) :
    ∃ ar, ar ∈ al ∧ ar.base ≤ x ∧ x + headerSize + bx.size ≤ ar.base + ar.size := by
  obtain ⟨ar, har, l, hc, hm⟩ := h.covered x (mem_keysOf_of_lookupB hlk)
  exact ⟨ar, har, (hc.mem_bounds x hm).1, hc.footEnd_le hm hlk⟩

theorem WFS.foot_disjoint {al : List MemArena} {m : BlockMap} (h : WFS al m)
    {x y : Nat} {bx byy : MemBlock} (hx : lookupB m x = some bx)
    (hy : lookupB m y = some byy) (hne : x ≠ y) :
    x + headerSize + bx.size ≤ y ∨ y + headerSize + byy.size ≤ x := by
  obtain ⟨ar1, har1, l1, hc1, hm1⟩ := h.covered x (mem_keysOf_of_lookupB hx)
  obtain ⟨ar2, har2, l2, hc2, hm2⟩ := h.covered y (mem_keysOf_of_lookupB hy)
  by_cases he : ar1 = ar2
  · subst he
    have hl := Chain.unique hc1 hc2
    subst hl
    exact hc1.disjoint_foot hm1 hm2 hne hx hy
  · have hsep := h.sep_of_mem_ne har1 har2 he
    have hb1 := hc1.mem_bounds x hm1
    have hf1 := hc1.footEnd_le hm1 hx
    have hb2 := hc2.mem_bounds y hm2
    have hf2 := hc2.footEnd_le hm2 hy
    rcases hsep with hs | hs
    · left; omega
    · right; omega

theorem WFS.end_not_key {al : List MemArena} {m : BlockMap} (h : WFS al m)
    {ar : MemArena} (har : ar ∈ al) : (ar.base + ar.size) ∉ keysOf m := by
  intro hmem
  obtain ⟨ar2, har2, l2, hc2, hm2⟩ := h.covered _ hmem
  have hb2 := hc2.mem_bounds _ hm2
  by_cases he : ar = ar2
  · subst he; omega
  · have hsep := h.sep_of_mem_ne har har2 he
    rcases hsep with hs | hs <;> omega

theorem WFS.key_align {al : List MemArena} {m : BlockMap} (h : WFS al m)
    {x : Nat} (hx : x ∈ keysOf m) : x % 4 = 0 := by
  obtain ⟨ar, har, l, hc, hm⟩ := h.covered x hx
  have := hc.align x hm
  have hb := (h.arOk ar har).2.1
  omega

theorem Chain.size_align {m : BlockMap} {e a : Nat} {l : List Nat}
    (h : Chain m e a l) : ∀ x ∈ l, ∀ {bx}, lookupB m x = some bx →
    bx.size % 4 = 0 := by
  induction h with
  | nil => intro x hx; simp at hx
  | cons hlk hlt hsz hlast hrest ih =>
    intro x hx bx hlkx
    rcases List.mem_cons.1 hx with hh | hh
    · subst hh
      rw [hlk] at hlkx
      cases hlkx
      exact hsz
    · exact ih x hh hlkx

theorem Chain.last_iff {m : BlockMap} {e a : Nat} {l : List Nat}
    (h : Chain m e a l) : ∀ x ∈ l, ∀ {bx}, lookupB m x = some bx →
    (bx.last = true ↔ x + headerSize + bx.size = e) := by
  induction h with
  | nil => intro x hx; simp at hx
  | cons hlk hlt hsz hlast hrest ih =>
    intro x hx bx hlkx
    rcases List.mem_cons.1 hx with hh | hh
    · subst hh
      rw [hlk] at hlkx
      cases hlkx
      exact hlast
    · exact ih x hh hlkx

theorem WFS.sizes_align {al : List MemArena} {m : BlockMap} (h : WFS al m)
    {x : Nat} {bx : MemBlock} (hlk : lookupB m x = some bx) : bx.size % 4 = 0 := by
  obtain ⟨ar, har, l, hc, hm⟩ := h.covered x (mem_keysOf_of_lookupB hlk)
  exact hc.size_align x hm hlk

/-! ## Splitting preserves well-formedness -/

theorem lookupB_some_of_mem_keys {m : BlockMap} {a : Nat} (h : a ∈ keysOf m) :
    ∃ b, lookupB m a = some b := by
  have := lookupB_isSome_of_mem_keys h
  cases hl : lookupB m a with
  | none => rw [hl] at this; simp at this
  | some b => exact ⟨b, rfl⟩

theorem split_eq_of_lookup_none {m : BlockMap} {addr : Nat} (size : Nat)
    (hlk : lookupB m addr = none) : split_mem_block m addr size = m := by
  unfold split_mem_block
  rw [hlk]

theorem split_eq_of_small {m : BlockMap} {addr : Nat} {blk : MemBlock} (size : Nat)
    (hlk : lookupB m addr = some blk)
    (hcond : ¬ (align_mem_size size + headerSize + 4 ≤ blk.size)) :
    split_mem_block m addr size = m := by
  unfold split_mem_block
  rw [hlk]
  simp only [if_neg hcond]

theorem split_eq_of_fit {m : BlockMap} {addr : Nat} {blk : MemBlock} (size : Nat)
    (hlk : lookupB m addr = some blk)
    (hcond : align_mem_size size + headerSize + 4 ≤ blk.size) :
    split_mem_block m addr size =
      insertB (setB m addr { blk with size := align_mem_size size, last := false })
        (addr + headerSize + align_mem_size size)
        ⟨blk.size - align_mem_size size - headerSize, true, false, blk.last⟩ := by
  unfold split_mem_block
  rw [hlk]
  simp only [if_pos hcond]

/-- Chain surgery for a firing split: the arena chain containing `addr` stays
a chain, with the carved-off block address inserted right after `addr`. -/
theorem chain_split_arena {m : BlockMap} {e addr sz : Nat} {blk : MemBlock}
    (hlk : lookupB m addr = some blk)
    (hcond : sz + headerSize + 4 ≤ blk.size) (hsz4 : sz % 4 = 0)
    (hfresh : (addr + headerSize + sz) ∉ keysOf m) :
    ∀ {start l}, Chain m e start l → addr ∈ l →
    ∃ l', Chain (insertB (setB m addr { blk with size := sz, last := false })
        (addr + headerSize + sz)
        ⟨blk.size - sz - headerSize, true, false, blk.last⟩) e start l' ∧
      ∀ x, x ∈ l' ↔ x ∈ l ∨ x = addr + headerSize + sz := by
  intro start l hch
  have h16 : headerSize = 16 := rfl
  induction hch with
  | nil => intro hmem; simp at hmem
  | cons hlk0 hlt0 hsz0 hlast0 hrest ih =>
    rename_i addr0 b rest
    intro hmem
    by_cases heq : addr0 = addr
    · subst heq
      rw [hlk0] at hlk
      cases hlk
      refine ⟨addr0 :: (addr0 + headerSize + sz) :: rest, ?_, ?_⟩
      · have hne1 : addr0 ≠ addr0 + headerSize + sz := by omega
        have hend : addr0 + headerSize + blk.size ≤ e := hrest.start_le
        have hnewlt : addr0 + headerSize + sz < e := by omega
        have hlknew : lookupB (insertB (setB m addr0 { blk with size := sz, last := false })
            (addr0 + headerSize + sz)
            ⟨blk.size - sz - headerSize, true, false, blk.last⟩) addr0 =
            some { blk with size := sz, last := false } := by
          rw [lookupB_insertB, if_neg hne1]
          exact lookupB_setB_self hlk0
        refine Chain.cons hlknew hlt0 hsz4 ?_ ?_
        · show (false = true) ↔ addr0 + headerSize + sz = e
          exact iff_of_false (by simp) (by omega)
        · show Chain _ e (addr0 + headerSize + sz) ((addr0 + headerSize + sz) :: rest)
          have hlknew2 : lookupB (insertB (setB m addr0 { blk with size := sz, last := false })
              (addr0 + headerSize + sz)
              ⟨blk.size - sz - headerSize, true, false, blk.last⟩)
              (addr0 + headerSize + sz) =
              some ⟨blk.size - sz - headerSize, true, false, blk.last⟩ := by
            rw [lookupB_insertB, if_pos rfl]
          refine Chain.cons hlknew2 hnewlt ?_ ?_ ?_
          · show (blk.size - sz - headerSize) % 4 = 0
            omega
          · show blk.last = true ↔ addr0 + headerSize + sz + headerSize +
              (blk.size - sz - headerSize) = e
            rw [show addr0 + headerSize + sz + headerSize +
              (blk.size - sz - headerSize) = addr0 + headerSize + blk.size from by omega]
            exact hlast0
          · show Chain _ e (addr0 + headerSize + sz + headerSize +
              (blk.size - sz - headerSize)) rest
            rw [show addr0 + headerSize + sz + headerSize +
              (blk.size - sz - headerSize) = addr0 + headerSize + blk.size from by omega]
            refine hrest.congr ?_
            intro x hx
            have hb := hrest.mem_bounds x hx
            rw [lookupB_insertB, if_neg (by omega), lookupB_setB_ne (by omega)]
      · intro x
        simp only [List.mem_cons]
        constructor
        · rintro (hh | hh | hh)
          · exact Or.inl (Or.inl hh)
          · exact Or.inr hh
          · exact Or.inl (Or.inr hh)
        · rintro ((hh | hh) | hh)
          · exact Or.inl hh
          · exact Or.inr (Or.inr hh)
          · exact Or.inr (Or.inl hh)
    · have hmem2 : addr ∈ rest := by
        rcases List.mem_cons.1 hmem with hh | hh
        · exact absurd hh.symm heq
        · exact hh
      obtain ⟨l2, hc2, hiff⟩ := ih hmem2
      have haddr_gt : addr0 + headerSize + b.size ≤ addr := (hrest.mem_bounds _ hmem2).1
      have hfreshAddr : addr0 ≠ addr + headerSize + sz := by
        intro hh
        exact hfresh (hh ▸ mem_keysOf_of_lookupB hlk0)
      refine ⟨addr0 :: l2, ?_, ?_⟩
      · refine Chain.cons ?_ hlt0 hsz0 hlast0 hc2
        rw [lookupB_insertB, if_neg hfreshAddr, lookupB_setB_ne (by omega)]
        exact hlk0
      · intro x
        simp only [List.mem_cons, hiff x]
        constructor
        · rintro (hh | hh | hh)
          · exact Or.inl (Or.inl hh)
          · exact Or.inl (Or.inr hh)
          · exact Or.inr hh
        · rintro ((hh | hh) | hh)
          · exact Or.inl hh
          · exact Or.inr (Or.inl hh)
          · exact Or.inr (Or.inr hh)

theorem wfs_split {al : List MemArena} {m : BlockMap} (h : WFS al m)
    (addr size : Nat) : WFS al (split_mem_block m addr size) := by
  have h16 : headerSize = 16 := rfl
  cases hlk : lookupB m addr with
  | none => rw [split_eq_of_lookup_none size hlk]; exact h
  | some blk =>
    by_cases hcond : align_mem_size size + headerSize + 4 ≤ blk.size
    · rw [split_eq_of_fit size hlk hcond]
      set sz := align_mem_size size with hsz_def
      have hsz4 : sz % 4 = 0 := align_mod4 size
      have hfresh : (addr + headerSize + sz) ∉ keysOf m := by
        intro hmem
        obtain ⟨bn, hbn⟩ := lookupB_some_of_mem_keys hmem
        have hd := h.foot_disjoint hlk hbn (by omega)
        omega
      have hkeys : keysOf (insertB (setB m addr { blk with size := sz, last := false })
          (addr + headerSize + sz)
          ⟨blk.size - sz - headerSize, true, false, blk.last⟩) =
          (addr + headerSize + sz) :: keysOf m := by
        rw [keysOf_insertB, eraseB_eq_of_not_mem (by rw [keysOf_setB]; exact hfresh),
          keysOf_setB]
      obtain ⟨ar0, har0, l0, hc0, hm0⟩ := h.covered addr (mem_keysOf_of_lookupB hlk)
      refine ⟨?_, h.arOk, ?_, ?_, h.sep⟩
      · rw [hkeys]
        exact List.nodup_cons.2 ⟨hfresh, h.nodup⟩
      · intro ar har
        obtain ⟨l, hc⟩ := h.chains ar har
        by_cases hmem : addr ∈ l
        · obtain ⟨l', hc', _⟩ := chain_split_arena hlk hcond hsz4 hfresh hc hmem
          exact ⟨l', hc'⟩
        · refine ⟨l, hc.congr ?_⟩
          intro x hx
          have hxk : x ∈ keysOf m := hc.mem_keys x hx
          have hx1 : x ≠ addr := fun hh => hmem (hh ▸ hx)
          have hx2 : x ≠ addr + headerSize + sz := fun hh => hfresh (hh ▸ hxk)
          rw [lookupB_insertB, if_neg hx2, lookupB_setB_ne hx1]
      · intro x hx
        rw [hkeys] at hx
        rcases List.mem_cons.1 hx with hx | hx
        · subst hx
          obtain ⟨l', hc', hiff⟩ := chain_split_arena hlk hcond hsz4 hfresh hc0 hm0
          exact ⟨ar0, har0, l', hc', (hiff _).2 (Or.inr rfl)⟩
        · obtain ⟨ar, har, l, hc, hm⟩ := h.covered x hx
          by_cases hmem : addr ∈ l
          · obtain ⟨l', hc', hiff⟩ := chain_split_arena hlk hcond hsz4 hfresh hc hmem
            exact ⟨ar, har, l', hc', (hiff _).2 (Or.inl hm)⟩
          · refine ⟨ar, har, l, hc.congr ?_, hm⟩
            intro y hy
            have hyk : y ∈ keysOf m := hc.mem_keys y hy
            have hy1 : y ≠ addr := fun hh => hmem (hh ▸ hy)
            have hy2 : y ≠ addr + headerSize + sz := fun hh => hfresh (hh ▸ hyk)
            rw [lookupB_insertB, if_neg hy2, lookupB_setB_ne hy1]
    · rw [split_eq_of_small size hlk hcond]
      exact h

/-! ## Free-flag updates and coalescing preserve well-formedness -/

theorem wfs_setB_sameSL {al : List MemArena} {m : BlockMap} {a : Nat}
    {b b2 : MemBlock} (h : WFS al m) (hlk : lookupB m a = some b)
    (hsz : b2.size = b.size) (hlast : b2.last = b.last) :
    WFS al (setB m a b2) := by
  have hagree : ∀ x, sameSL (lookupB (setB m a b2) x) (lookupB m x) := by
    intro x
    by_cases hx : x = a
    · subst hx
      rw [lookupB_setB_self hlk, hlk]
      exact ⟨hsz, hlast⟩
    · rw [lookupB_setB_ne hx]
      cases lookupB m x <;> simp [sameSL]
  refine ⟨?_, h.arOk, ?_, ?_, h.sep⟩
  · rw [keysOf_setB]; exact h.nodup
  · intro ar har
    obtain ⟨l, hc⟩ := h.chains ar har
    exact ⟨l, hc.congrSL (fun x _ => hagree x)⟩
  · intro x hx
    rw [keysOf_setB] at hx
    obtain ⟨ar, har, l, hc, hm⟩ := h.covered x hx
    exact ⟨ar, har, l, hc.congrSL (fun y _ => hagree y), hm⟩

theorem wfs_markUsed {al : List MemArena} {m : BlockMap} (h : WFS al m)
    (a : Nat) : WFS al (markUsed m a) := by
  unfold markUsed
  cases hlk : lookupB m a with
  | none => exact h
  | some b => exact wfs_setB_sameSL h hlk rfl rfl

/-- Chain surgery for one absorption step of the coalescing pass: the block
at `a` absorbs the registered block right after it; the chain containing `a`
stays a chain, with the absorbed address removed. -/
theorem chain_merge_arena {m : BlockMap} {e a : Nat} {blk nb : MemBlock}
    (hlk : lookupB m a = some blk)
    (hlkn : lookupB m (a + headerSize + blk.size) = some nb)
    (hnotend : a + headerSize + blk.size ≠ e) :
    ∀ {start l}, Chain m e start l → a ∈ l →
    ∃ l', Chain (eraseB (setB m a { blk with size := blk.size + headerSize + nb.size, last := nb.last }) (a + headerSize + blk.size)) e start l' ∧
      ∀ x, x ∈ l' ↔ x ∈ l ∧ x ≠ a + headerSize + blk.size := by
  intro start l hch
  have h16 : headerSize = 16 := rfl
  induction hch with
  | nil => intro hmem; simp at hmem
  | cons hlk0 hlt0 hsz0 hlast0 hrest ih =>
    rename_i addr0 b rest
    intro hmem
    by_cases heq : addr0 = a
    · subst heq
      rw [hlk0] at hlk
      cases hlk
      cases hrest with
      | nil => exact absurd rfl hnotend
      | cons hlkn2 hltn hszn hlastn hrest2 =>
        rename_i nb2 rest2
        rw [hlkn2] at hlkn
        cases hlkn
        refine ⟨addr0 :: rest2, ?_, ?_⟩
        · have hne1 : addr0 ≠ addr0 + headerSize + blk.size := by omega
          have hlknew : lookupB (eraseB (setB m addr0 { blk with size := blk.size + headerSize + nb.size, last := nb.last }) (addr0 + headerSize + blk.size)) addr0 = some { blk with size := blk.size + headerSize + nb.size, last := nb.last } := by
            rw [lookupB_eraseB, if_neg hne1]
            exact lookupB_setB_self hlk0
          refine Chain.cons hlknew hlt0 ?_ ?_ ?_
          · show (blk.size + headerSize + nb.size) % 4 = 0
            omega
          · show nb.last = true ↔ addr0 + headerSize +
              (blk.size + headerSize + nb.size) = e
            rw [show addr0 + headerSize + (blk.size + headerSize + nb.size) =
              addr0 + headerSize + blk.size + headerSize + nb.size from by omega]
            exact hlastn
          · show Chain _ e (addr0 + headerSize + (blk.size + headerSize + nb.size)) rest2
            rw [show addr0 + headerSize + (blk.size + headerSize + nb.size) =
              addr0 + headerSize + blk.size + headerSize + nb.size from by omega]
            refine hrest2.congr ?_
            intro x hx
            have hb := hrest2.mem_bounds x hx
            rw [lookupB_eraseB, if_neg (by omega), lookupB_setB_ne (by omega)]
        · intro x
          simp only [List.mem_cons]
          constructor
          · rintro (hh | hh)
            · exact ⟨Or.inl hh, by omega⟩
            · have hb := hrest2.mem_bounds x hh
              exact ⟨Or.inr (Or.inr hh), by omega⟩
          · rintro ⟨hh | hh | hh, hne⟩
            · exact Or.inl hh
            · exact absurd hh hne
            · exact Or.inr hh
    · have hmem2 : a ∈ rest := by
        rcases List.mem_cons.1 hmem with hh | hh
        · exact absurd hh.symm heq
        · exact hh
      obtain ⟨l2, hc2, hiff⟩ := ih hmem2
      have ha_gt : addr0 + headerSize + b.size ≤ a := (hrest.mem_bounds _ hmem2).1
      refine ⟨addr0 :: l2, ?_, ?_⟩
      · refine Chain.cons ?_ hlt0 hsz0 hlast0 hc2
        rw [lookupB_eraseB, if_neg (by omega), lookupB_setB_ne (by omega)]
        exact hlk0
      · intro x
        simp only [List.mem_cons, hiff x]
        constructor
        · rintro (hh | ⟨hh, hne⟩)
          · exact ⟨Or.inl hh, by omega⟩
          · exact ⟨Or.inr hh, hne⟩
        · rintro ⟨hh | hh, hne⟩
          · exact Or.inl hh
          · exact Or.inr ⟨hh, hne⟩

theorem wfs_absorb_step {al : List MemArena} {m : BlockMap} {a : Nat}
    {blk nb : MemBlock} (h : WFS al m) (hlk : lookupB m a = some blk)
    (hlkn : lookupB m (a + headerSize + blk.size) = some nb) :
    WFS al (eraseB (setB m a { blk with size := blk.size + headerSize + nb.size, last := nb.last }) (a + headerSize + blk.size)) := by
  have h16 : headerSize = 16 := rfl
  obtain ⟨ar0, har0, l0, hc0, hm0⟩ := h.covered a (mem_keysOf_of_lookupB hlk)
  have hb0 := hc0.mem_bounds a hm0
  have hf0 := hc0.footEnd_le hm0 hlk
  have hkeys : ∀ x, x ∈ keysOf (eraseB (setB m a
      { blk with size := blk.size + headerSize + nb.size, last := nb.last })
      (a + headerSize + blk.size)) ↔
      x ∈ keysOf m ∧ x ≠ a + headerSize + blk.size := by
    intro x
    rw [mem_keys_eraseB, keysOf_setB]
  have hnext_arena : ∀ ar ∈ al, ∀ l, Chain m (ar.base + ar.size) ar.base l →
      a ∉ l → (a + headerSize + blk.size) ∉ l := by
    intro ar har l hc hnot hmem
    by_cases he : ar = ar0
    · subst he
      have := Chain.unique hc hc0
      subst this
      exact hnot hm0
    · have hsep := h.sep_of_mem_ne har har0 he
      have hbx := hc.mem_bounds _ hmem
      rcases hsep with hs | hs <;> omega
  refine ⟨?_, h.arOk, ?_, ?_, h.sep⟩
  · exact nodup_keys_eraseB (nodup_keys_setB h.nodup)
  · intro ar har
    obtain ⟨l, hc⟩ := h.chains ar har
    by_cases hmem : a ∈ l
    · have hnotend : a + headerSize + blk.size ≠ ar.base + ar.size := by
        intro hh
        exact h.end_not_key har (hh ▸ mem_keysOf_of_lookupB hlkn)
      obtain ⟨l', hc', _⟩ := chain_merge_arena hlk hlkn hnotend hc hmem
      exact ⟨l', hc'⟩
    · refine ⟨l, hc.congr ?_⟩
      intro x hx
      have hx1 : x ≠ a := fun hh => hmem (hh ▸ hx)
      have hx2 : x ≠ a + headerSize + blk.size :=
        fun hh => hnext_arena ar har l hc hmem (hh ▸ hx)
      rw [lookupB_eraseB, if_neg hx2, lookupB_setB_ne hx1]
  · intro x hx
    rw [hkeys x] at hx
    obtain ⟨hx, hxne⟩ := hx
    obtain ⟨ar, har, l, hc, hm⟩ := h.covered x hx
    by_cases hmem : a ∈ l
    · have hnotend : a + headerSize + blk.size ≠ ar.base + ar.size := by
        intro hh
        exact h.end_not_key har (hh ▸ mem_keysOf_of_lookupB hlkn)
      obtain ⟨l', hc', hiff⟩ := chain_merge_arena hlk hlkn hnotend hc hmem
      exact ⟨ar, har, l', hc', (hiff _).2 ⟨hm, hxne⟩⟩
    · refine ⟨ar, har, l, hc.congr ?_, hm⟩
      intro y hy
      have hy1 : y ≠ a := fun hh => hmem (hh ▸ hy)
      have hy2 : y ≠ a + headerSize + blk.size :=
        fun hh => hnext_arena ar har l hc hmem (hh ▸ hy)
      rw [lookupB_eraseB, if_neg hy2, lookupB_setB_ne hy1]

theorem wfs_absorbLoop {al : List MemArena} :
    ∀ (fuel a : Nat) (m : BlockMap), WFS al m → WFS al (absorbLoop fuel a m) := by
  intro fuel
  induction fuel with
  | zero => intro a m h; exact h
  | succ fuel ih =>
    intro a m h
    cases hlk : lookupB m a with
    | none => simpa [absorbLoop, hlk] using h
    | some blk =>
      by_cases hfree : blk.free
      · cases hlkn : lookupB m (a + headerSize + blk.size) with
        | none => simpa [absorbLoop, hlk, hlkn, hfree] using h
        | some nb =>
          by_cases hnf : nb.free
          · have h2 := wfs_absorb_step h hlk hlkn
            simpa [absorbLoop, hlk, hlkn, hfree, hnf] using ih a _ h2
          · simpa [absorbLoop, hlk, hlkn, hfree, hnf] using h
      · simpa [absorbLoop, hlk, hfree] using h

theorem wfs_merge {al : List MemArena} :
    ∀ (order : List Nat) (m : BlockMap), WFS al m →
    WFS al (merge_free_blocks order m) := by
  intro order
  induction order with
  | nil => intro m h; exact h
  | cons a rest ih =>
    intro m h
    exact ih _ (wfs_absorbLoop _ _ _ h)

/-! ## The first-fit scan and `mem_alloc` -/

theorem WFS.key_pos {al : List MemArena} {m : BlockMap} (h : WFS al m)
    {x : Nat} (hx : x ∈ keysOf m) : 0 < x := by
  obtain ⟨ar, har, l, hc, hm⟩ := h.covered x hx
  have hb := hc.mem_bounds x hm
  have h0 := (h.arOk ar har).1
  omega

theorem fresh_base_not_key {al : List MemArena} {m : BlockMap} (h : WFS al m)
    {base asz : Nat}
    (hsep : ∀ ar ∈ al, base + asz < ar.base ∨ ar.base + ar.size < base) :
    base ∉ keysOf m := by
  intro hmem
  obtain ⟨ar, har, l, hc, hm⟩ := h.covered base hmem
  have hb := hc.mem_bounds base hm
  rcases hsep ar har with hs | hs <;> omega

theorem osOk_some {os : Option Nat} {b asz : Nat} {al : List MemArena}
    (hos : osOk os asz al = true) (hsome : os = some b) :
    b ≠ 0 ∧ b % 4 = 0 ∧ ∀ ar ∈ al, b + asz < ar.base ∨ ar.base + ar.size < b := by
  subst hsome
  simp only [osOk, Bool.and_eq_true, List.all_eq_true] at hos
  obtain ⟨⟨h1, h2⟩, h3⟩ := hos
  refine ⟨by simpa using h1, by simpa using h2, ?_⟩
  intro ar har
  have := h3 ar har
  simpa using this

theorem arenaSizeFor_ge (n : Nat) : default_arena_size ≤ arenaSizeFor n :=
  le_trans (le_max_right _ _) (align_ge _)

theorem arenaSizeFor_ge_req (n : Nat) :
    align_mem_size n + headerSize ≤ arenaSizeFor n :=
  le_trans (le_max_left _ _) (align_ge _)

theorem arenaSizeFor_mod4 (n : Nat) : arenaSizeFor n % 4 = 0 :=
  align_mod4 _

theorem markUsed_split_lookup {m : BlockMap} {b sz : Nat} {blk : MemBlock}
    (hlk : lookupB m b = some blk) (hsz4 : sz % 4 = 0) (hge : sz ≤ blk.size) :
    ∃ blk', lookupB (markUsed (split_mem_block m b sz) b) b = some blk' ∧
      blk'.free = false ∧ sz ≤ blk'.size := by
  have h16 : headerSize = 16 := rfl
  have hal : align_mem_size sz = sz := align_eq_of_mod4 hsz4
  by_cases hcond : align_mem_size sz + headerSize + 4 ≤ blk.size
  · have heq := split_eq_of_fit sz hlk hcond
    rw [hal] at heq hcond
    have hne : b ≠ b + headerSize + sz := by omega
    have hlk2 : lookupB (split_mem_block m b sz) b =
        some { blk with size := sz, last := false } := by
      rw [heq, lookupB_insertB, if_neg hne]
      exact lookupB_setB_self hlk
    simp only [markUsed, hlk2]
    exact ⟨_, lookupB_setB_self hlk2, rfl, Nat.le_refl _⟩
  · have heq := split_eq_of_small sz hlk hcond
    rw [heq]
    simp only [markUsed, hlk]
    exact ⟨_, lookupB_setB_self hlk, rfl, hge⟩

theorem allocLoop_cases : ∀ (fuel e a sz : Nat) (m : BlockMap),
    allocLoop fuel e a sz m = (none, m) ∨
    ∃ b blk, lookupB m b = some blk ∧ blk.free = true ∧ sz ≤ blk.size ∧
      allocLoop fuel e a sz m =
        (some (b + headerSize), markUsed (split_mem_block m b sz) b) := by
  intro fuel
  induction fuel with
  | zero => intro e a sz m; left; rfl
  | succ fuel ih =>
    intro e a sz m
    by_cases hae : a < e
    · cases hlk : lookupB m a with
      | none => left; simp [allocLoop, hae, hlk]
      | some blk =>
        by_cases hcond : blk.free = true ∧ sz ≤ blk.size
        · right
          exact ⟨a, blk, hlk, hcond.1, hcond.2, by simp [allocLoop, hae, hlk, hcond]⟩
        · have hstep : allocLoop (fuel + 1) e a sz m =
              allocLoop fuel e (a + headerSize + blk.size) sz m := by
            simp [allocLoop, hae, hlk, hcond]
          rw [hstep]
          exact ih e (a + headerSize + blk.size) sz m
    · left; simp [allocLoop, hae]

theorem allocate_memory_block_cases (arena : MemArena) (size : Nat) (m : BlockMap) :
    allocate_memory_block arena size m = (none, m) ∨
    ∃ b blk, lookupB m b = some blk ∧ blk.free = true ∧
      align_mem_size size ≤ blk.size ∧
      allocate_memory_block arena size m =
        (some (b + headerSize), markUsed (split_mem_block m b (align_mem_size size)) b) := by
  have := allocLoop_cases (lengthB m + 1) (arena.base + arena.size) arena.base
    (align_mem_size size) m
  simpa [allocate_memory_block] using this

theorem allocInArenas_cases : ∀ (al : List MemArena) (sz : Nat) (m : BlockMap),
    allocInArenas al sz m = (none, m) ∨
    ∃ b blk, lookupB m b = some blk ∧ blk.free = true ∧
      align_mem_size sz ≤ blk.size ∧
      allocInArenas al sz m =
        (some (b + headerSize), markUsed (split_mem_block m b (align_mem_size sz)) b) := by
  intro al
  induction al with
  | nil => intro sz m; left; rfl
  | cons ar rest ih =>
    intro sz m
    rcases allocate_memory_block_cases ar sz m with heq | ⟨b, blk, hlk, hfree, hge, heq⟩
    · have hstep : allocInArenas (ar :: rest) sz m = allocInArenas rest sz m := by
        simp [allocInArenas, heq]
      rw [hstep]
      exact ih sz m
    · right
      exact ⟨b, blk, hlk, hfree, hge, by simp [allocInArenas, heq]⟩

theorem wfs_create {al : List MemArena} {m : BlockMap} (h : WFS al m)
    {base asz : Nat} (hb0 : base ≠ 0) (hb4 : base % 4 = 0) (hasz4 : asz % 4 = 0)
    (haszge : default_arena_size ≤ asz)
    (hsep : ∀ ar ∈ al, base + asz < ar.base ∨ ar.base + ar.size < base) :
    WFS (⟨asz, base⟩ :: al) (insertB m base ⟨asz - headerSize, true, true, true⟩) := by
  have h16 : headerSize = 16 := rfl
  have hd : default_arena_size = 4096 := rfl
  have hfresh := fresh_base_not_key h hsep
  have hkeys : keysOf (insertB m base ⟨asz - headerSize, true, true, true⟩) =
      base :: keysOf m := by
    rw [keysOf_insertB, eraseB_eq_of_not_mem hfresh]
  have hlkb : lookupB (insertB m base ⟨asz - headerSize, true, true, true⟩) base =
      some ⟨asz - headerSize, true, true, true⟩ := by
    rw [lookupB_insertB, if_pos rfl]
  have hchain_new : Chain (insertB m base ⟨asz - headerSize, true, true, true⟩)
      (base + asz) base [base] := by
    refine Chain.cons hlkb (by omega) ?_ ?_ ?_
    · show (asz - headerSize) % 4 = 0
      omega
    · show true = true ↔ base + headerSize + (asz - headerSize) = base + asz
      exact iff_of_true rfl (by omega)
    · show Chain _ (base + asz) (base + headerSize + (asz - headerSize)) []
      rw [show base + headerSize + (asz - headerSize) = base + asz from by omega]
      exact Chain.nil
  have hold : ∀ x ∈ keysOf m,
      lookupB (insertB m base ⟨asz - headerSize, true, true, true⟩) x = lookupB m x := by
    intro x hx
    have hxb : x ≠ base := fun hh => hfresh (hh ▸ hx)
    rw [lookupB_insertB, if_neg hxb]
  refine ⟨?_, ?_, ?_, ?_, ?_⟩
  · rw [hkeys]
    exact List.nodup_cons.2 ⟨hfresh, h.nodup⟩
  · intro ar har
    rcases List.mem_cons.1 har with hh | hh
    · subst hh; exact ⟨hb0, hb4, hasz4⟩
    · exact h.arOk ar hh
  · intro ar har
    rcases List.mem_cons.1 har with hh | hh
    · subst hh; exact ⟨[base], hchain_new⟩
    · obtain ⟨l, hc⟩ := h.chains ar hh
      exact ⟨l, hc.congr (fun x hx => hold x (hc.mem_keys x hx))⟩
  · intro x hx
    rw [hkeys] at hx
    rcases List.mem_cons.1 hx with hh | hh
    · exact ⟨⟨asz, base⟩, List.mem_cons_self _ _, [base], hchain_new,
        by rw [hh]; exact List.mem_singleton.2 rfl⟩
    · obtain ⟨ar, har, l, hc, hm⟩ := h.covered x hh
      exact ⟨ar, List.mem_cons_of_mem _ har, l,
        hc.congr (fun y hy => hold y (hc.mem_keys y hy)), hm⟩
  · exact List.pairwise_cons.2 ⟨fun ar har => hsep ar har, h.sep⟩

/-- One step of the scan loop when the block at `a` fits. -/
theorem allocLoop_head_fit {fuel e a sz : Nat} {m : BlockMap} {blk : MemBlock}
    (hae : a < e) (hlk : lookupB m a = some blk) (hfree : blk.free = true)
    (hge : sz ≤ blk.size) :
    allocLoop (fuel + 1) e a sz m =
      (some (a + headerSize), markUsed (split_mem_block m a sz) a) := by
  simp [allocLoop, hae, hlk, hfree, hge]

/-- Master specification of `mem_alloc`: it preserves well-formedness
(given a valid OS response), never touches payload bytes, leaves the state
untouched on failure, and on success returns the payload address of a block
that is now in-use with at least the aligned requested size, carved either
out of a previously free block or out of a fresh arena. -/
theorem mem_alloc_spec {s : AllocState} {os : Option Nat} {n : Nat}
    (h : WF s) (hos : osOk os (arenaSizeFor n) s.arena_list = true) :
    WF (mem_alloc os n s).2 ∧
    (mem_alloc os n s).2.mem = s.mem ∧
    ((mem_alloc os n s).1 = none → (mem_alloc os n s).2 = s) ∧
    (∀ p, (mem_alloc os n s).1 = some p →
      ∃ b blk', p = b + headerSize ∧ b % 4 = 0 ∧
        lookupB (mem_alloc os n s).2.block_map b = some blk' ∧
        blk'.free = false ∧ align_mem_size n ≤ blk'.size ∧
        (b ∉ keysOf s.block_map ∨
          ∃ blk0, lookupB s.block_map b = some blk0 ∧ blk0.free = true ∧
            align_mem_size n ≤ blk0.size)) := by
  have h16 : headerSize = 16 := rfl
  have hd : default_arena_size = 4096 := rfl
  have hid : align_mem_size (align_mem_size n) = align_mem_size n := align_idem n
  by_cases hn : n = 0
  · subst hn
    refine ⟨h, rfl, fun _ => rfl, fun p hp => ?_⟩
    simp [mem_alloc] at hp
  · rcases allocInArenas_cases s.arena_list (align_mem_size n) s.block_map with
      heq | ⟨b, blk, hlk, hfree, hge, heq⟩
    · -- no existing arena has room: a new arena is created (or the call fails)
      cases hof : os with
      | none =>
        subst hof
        have hres : mem_alloc none n s = (none, s) := by
          simp [mem_alloc, hn, heq, create_new_arena]
        refine ⟨by rw [hres]; exact h, by rw [hres], fun _ => by rw [hres],
          fun p hp => ?_⟩
        rw [hres] at hp
        simp at hp
      | some base =>
        subst hof
        obtain ⟨hb0, hb4, hsep⟩ := osOk_some hos rfl
        have haszge : default_arena_size ≤ arenaSizeFor n := arenaSizeFor_ge n
        have haszreq : align_mem_size n + headerSize ≤ arenaSizeFor n :=
          arenaSizeFor_ge_req n
        have hasz4 : arenaSizeFor n % 4 = 0 := arenaSizeFor_mod4 n
        have hwf1 : WFS (⟨arenaSizeFor n, base⟩ :: s.arena_list)
            (insertB s.block_map base
              ⟨arenaSizeFor n - headerSize, true, true, true⟩) :=
          wfs_create h hb0 hb4 hasz4 haszge hsep
        have hlkb : lookupB (insertB s.block_map base
            ⟨arenaSizeFor n - headerSize, true, true, true⟩) base =
            some ⟨arenaSizeFor n - headerSize, true, true, true⟩ := by
          rw [lookupB_insertB, if_pos rfl]
        have hszle : align_mem_size n ≤ arenaSizeFor n - headerSize := by omega
        have hstep : allocate_memory_block ⟨arenaSizeFor n, base⟩ (align_mem_size n)
            (insertB s.block_map base ⟨arenaSizeFor n - headerSize, true, true, true⟩) =
            (some (base + headerSize),
              markUsed (split_mem_block (insertB s.block_map base
                ⟨arenaSizeFor n - headerSize, true, true, true⟩) base
                (align_mem_size n)) base) := by
          have hstep0 : allocLoop (lengthB (insertB s.block_map base
              ⟨arenaSizeFor n - headerSize, true, true, true⟩) + 1)
              (base + arenaSizeFor n) base (align_mem_size n)
              (insertB s.block_map base
                ⟨arenaSizeFor n - headerSize, true, true, true⟩) =
              (some (base + headerSize),
                markUsed (split_mem_block (insertB s.block_map base
                  ⟨arenaSizeFor n - headerSize, true, true, true⟩) base
                  (align_mem_size n)) base) :=
            allocLoop_head_fit (by omega) hlkb rfl hszle
          unfold allocate_memory_block
          rw [hid]
          exact hstep0
        have harena : create_new_arena (some base) (align_mem_size n + headerSize)
            default_arena_size s.arena_list s.block_map =
            (some ⟨arenaSizeFor n, base⟩, ⟨arenaSizeFor n, base⟩ :: s.arena_list,
              insertB s.block_map base
                ⟨arenaSizeFor n - headerSize, true, true, true⟩) := rfl
        have hres : mem_alloc (some base) n s = (some (base + headerSize), { s with arena_list := ⟨arenaSizeFor n, base⟩ :: s.arena_list, block_map := markUsed (split_mem_block (insertB s.block_map base ⟨arenaSizeFor n - headerSize, true, true, true⟩) base (align_mem_size n)) base }) := by
          simp [mem_alloc, hn, heq, harena, hstep]
        refine ⟨?_, ?_, ?_, ?_⟩
        · rw [hres]
          exact wfs_markUsed (wfs_split hwf1 base (align_mem_size n)) base
        · rw [hres]
        · intro hp
          rw [hres] at hp
          simp at hp
        · intro p hp
          rw [hres] at hp
          simp only [Option.some.injEq] at hp
          obtain ⟨blk', hlk', hfree', hge'⟩ :=
            markUsed_split_lookup hlkb (align_mod4 n) hszle
          refine ⟨base, blk', hp.symm, hb4, ?_, hfree', hge',
            Or.inl (fresh_base_not_key h hsep)⟩
          rw [hres]
          exact hlk'
    · -- first-fit success in an existing arena
      rw [hid] at hge heq
      have hres : mem_alloc os n s = (some (b + headerSize), { s with block_map := markUsed (split_mem_block s.block_map b (align_mem_size n)) b }) := by
        simp [mem_alloc, hn, heq]
      refine ⟨?_, ?_, ?_, ?_⟩
      · rw [hres]
        exact wfs_markUsed (wfs_split h b (align_mem_size n)) b
      · rw [hres]
      · intro hp
        rw [hres] at hp
        simp at hp
      · intro p hp
        rw [hres] at hp
        simp only [Option.some.injEq] at hp
        obtain ⟨blk', hlk', hfree', hge'⟩ :=
          markUsed_split_lookup hlk (align_mod4 n) hge
        refine ⟨b, blk', hp.symm, h.key_align (mem_keysOf_of_lookupB hlk), ?_,
          hfree', hge', Or.inr ⟨blk, hlk, hfree, hge⟩⟩
        rw [hres]
        exact hlk'

/-! ## `mem_free`, `mem_realloc` and reachability -/

theorem mem_free_wf {s : AllocState} {order : List Nat} {ptr : Nat}
    (h : WF s) : WF (mem_free order ptr s) := by
  unfold mem_free
  by_cases hp : ptr = 0
  · simpa [hp] using h
  · cases hlk : lookupB s.block_map (ptr - headerSize) with
    | none => simpa [hp, hlk] using h
    | some blk =>
      simp only [hp, if_neg hp, hlk]
      exact wfs_merge order _ (wfs_setB_sameSL h hlk rfl rfl)

theorem mem_free_mem (order : List Nat) (ptr : Nat) (s : AllocState) :
    (mem_free order ptr s).mem = s.mem := by
  unfold mem_free
  split
  · rfl
  · split <;> rfl

theorem mem_free_arenas (order : List Nat) (ptr : Nat) (s : AllocState) :
    (mem_free order ptr s).arena_list = s.arena_list := by
  unfold mem_free
  split
  · rfl
  · split <;> rfl

theorem arenaSizeFor_align (n : Nat) :
    arenaSizeFor (align_mem_size n) = arenaSizeFor n := by
  unfold arenaSizeFor
  rw [align_idem]

theorem mem_realloc_wf {s : AllocState} {os : Option Nat} {order : List Nat}
    {ptr n : Nat} (h : WF s)
    (hos : osOk os (arenaSizeFor n) s.arena_list = true) :
    WF (mem_realloc os order ptr n s).2 := by
  by_cases hp : ptr = 0
  · have hres : mem_realloc os order ptr n s = mem_alloc os n s := by
      simp [mem_realloc, hp]
    rw [hres]
    exact (mem_alloc_spec h hos).1
  · cases hlk : lookupB s.block_map (ptr - headerSize) with
    | none =>
      have hres : mem_realloc os order ptr n s = (none, s) := by
        simp [mem_realloc, hp, hlk]
      rw [hres]
      exact h
    | some blk =>
      by_cases hsz : align_mem_size n ≤ blk.size
      · have hres : mem_realloc os order ptr n s = (some ptr, { s with block_map := split_mem_block s.block_map (ptr - headerSize) (align_mem_size n) }) := by
          simp [mem_realloc, hp, hlk, hsz]
        rw [hres]
        exact wfs_split h (ptr - headerSize) (align_mem_size n)
      · have hos2 : osOk os (arenaSizeFor (align_mem_size n)) s.arena_list = true := by
          rw [arenaSizeFor_align]
          exact hos
        have hall := mem_alloc_spec (n := align_mem_size n) h hos2
        cases halloc : mem_alloc os (align_mem_size n) s with
        | mk r s₁ =>
          cases r with
          | none =>
            have hres : mem_realloc os order ptr n s = (none, s₁) := by
              simp [mem_realloc, hp, hlk, hsz, halloc]
            rw [hres]
            have := hall.1
            rw [halloc] at this
            exact this
          | some q =>
            have hres : mem_realloc os order ptr n s = (some q, mem_free order ptr { s₁ with mem := memcpy s₁.mem q ptr blk.size }) := by
              simp [mem_realloc, hp, hlk, hsz, halloc]
            rw [hres]
            refine mem_free_wf ?_
            have := hall.1
            rw [halloc] at this
            exact this

theorem wf_init (mem0 : Nat → Nat) : WF ⟨[], [], mem0⟩ := by
  refine ⟨?_, ?_, ?_, ?_, ?_⟩
  · simp [keysOf]
  · intro ar har; simp at har
  · intro ar har; simp at har
  · intro x hx; simp [keysOf] at hx
  · exact List.Pairwise.nil

/-- Every reachable state (with separated OS regions) is well-formed. -/
theorem reachable_wf {s : AllocState} (h : Reachable s) : WF s := by
  induction h with
  | init mem0 => exact wf_init mem0
  | step_alloc os n hr hos ih => exact (mem_alloc_spec ih hos).1
  | step_free order ptr hr ih => exact mem_free_wf ih
  | step_realloc os order ptr n hr hos ih => exact mem_realloc_wf ih hos

/-! ## The partition sum of an arena -/

theorem keysOf_eq_map (m : BlockMap) : keysOf m = List.map Prod.fst m := by
  induction m with
  | nil => rfl
  | cons p rest ih =>
    obtain ⟨k, v⟩ := p
    simp [keysOf, ih]

theorem mem_keysOf_of_pair_mem {m : BlockMap} {a : Nat} {b : MemBlock}
    (h : (a, b) ∈ m) : a ∈ keysOf m := by
  rw [keysOf_eq_map]
  exact List.mem_map_of_mem Prod.fst h

theorem keysOf_filter_key (q : Nat → Bool) (m : BlockMap) :
    keysOf (List.filter (fun p => q p.1) m) = List.filter q (keysOf m) := by
  induction m with
  | nil => rfl
  | cons p rest ih =>
    obtain ⟨k, v⟩ := p
    by_cases hq : q k
    · rw [show keysOf ((k, v) :: rest) = k :: keysOf rest from rfl,
        List.filter_cons_of_pos (by simpa using hq),
        List.filter_cons_of_pos (by simpa using hq)]
      rw [show keysOf ((k, v) :: List.filter (fun p => q p.1) rest) =
        k :: keysOf (List.filter (fun p => q p.1) rest) from rfl, ih]
    · rw [show keysOf ((k, v) :: rest) = k :: keysOf rest from rfl,
        List.filter_cons_of_neg (by simpa using hq),
        List.filter_cons_of_neg (by simpa using hq), ih]

theorem lookupB_of_mem_nodup {m : BlockMap} {a : Nat} {b : MemBlock}
    (hnd : (keysOf m).Nodup) (hmem : (a, b) ∈ m) : lookupB m a = some b := by
  induction m with
  | nil => simp at hmem
  | cons p rest ih =>
    obtain ⟨k, v⟩ := p
    have hnd2 : k ∉ keysOf rest ∧ (keysOf rest).Nodup := by
      have := hnd
      rw [show keysOf ((k, v) :: rest) = k :: keysOf rest from rfl] at this
      exact List.nodup_cons.1 this
    rcases List.mem_cons.1 hmem with hh | hh
    · cases hh
      simp [lookupB]
    · by_cases hk : k = a
      · subst hk
        exact absurd (mem_keysOf_of_pair_mem hh) hnd2.1
      · rw [show lookupB ((k, v) :: rest) a =
          if k = a then some v else lookupB rest a from rfl, if_neg hk]
        exact ih hnd2.2 hh

theorem wfs_sumInArena {al : List MemArena} {m : BlockMap} (h : WFS al m)
    {ar : MemArena} (har : ar ∈ al) : sumInArena ar m = ar.size := by
  obtain ⟨l, hc⟩ := h.chains ar har
  have hiff : ∀ x, x ∈ l ↔
      (x ∈ keysOf m ∧ (ar.base ≤ x ∧ x < ar.base + ar.size)) := by
    intro x
    constructor
    · intro hx
      exact ⟨hc.mem_keys x hx, hc.mem_bounds x hx⟩
    · rintro ⟨hk, hb⟩
      obtain ⟨ar2, har2, l2, hc2, hm2⟩ := h.covered x hk
      by_cases he : ar2 = ar
      · subst he
        exact (Chain.unique hc2 hc) ▸ hm2
      · have hsep := h.sep_of_mem_ne har2 har he
        have hb2 := hc2.mem_bounds x hm2
        exfalso
        rcases hsep with hs | hs <;> omega
  have hkeysS : keysOf (List.filter
      (fun p => decide (ar.base ≤ p.1 ∧ p.1 < ar.base + ar.size)) m) =
      List.filter (fun x => decide (ar.base ≤ x ∧ x < ar.base + ar.size))
        (keysOf m) :=
    keysOf_filter_key (fun x => decide (ar.base ≤ x ∧ x < ar.base + ar.size)) m
  have hperm : List.Perm (List.filter
      (fun x => decide (ar.base ≤ x ∧ x < ar.base + ar.size)) (keysOf m)) l := by
    refine (List.perm_ext_iff_of_nodup (h.nodup.filter _) hc.nodup).2 ?_
    intro x
    rw [List.mem_filter, hiff x]
    simp
  have hmapc : List.map (fun p => headerSize + p.2.size)
      (List.filter (fun p => decide (ar.base ≤ p.1 ∧ p.1 < ar.base + ar.size)) m) =
      List.map (footB m) (keysOf (List.filter
        (fun p => decide (ar.base ≤ p.1 ∧ p.1 < ar.base + ar.size)) m)) := by
    rw [keysOf_eq_map, List.map_map]
    refine List.map_congr_left ?_
    intro p hp
    have hpm : p ∈ m := List.mem_of_mem_filter hp
    obtain ⟨a, b⟩ := p
    have hlk : lookupB m a = some b := lookupB_of_mem_nodup h.nodup hpm
    show headerSize + b.size = footB m a
    simp [footB, hlk]
  have hsum : sumInArena ar m = sumFoot m l := by
    unfold sumInArena sumFoot
    rw [hmapc, hkeysS]
    exact (hperm.map (footB m)).sum_eq
  have htel := hc.telescope
  omega

/-! ## Completeness of the coalescing pass -/

theorem absorbLoop_lookup_other :
    ∀ (fuel a : Nat) (m : BlockMap) (x : Nat), x ≠ a →
    lookupB (absorbLoop fuel a m) x = lookupB m x ∨
    lookupB (absorbLoop fuel a m) x = none := by
  intro fuel
  induction fuel with
  | zero => intro a m x _; exact Or.inl rfl
  | succ fuel ih =>
    intro a m x hx
    cases hlk : lookupB m a with
    | none => rw [show absorbLoop (fuel + 1) a m = m by simp [absorbLoop, hlk]]; exact Or.inl rfl
    | some blk =>
      by_cases hfree : blk.free
      · cases hlkn : lookupB m (a + headerSize + blk.size) with
        | none =>
          rw [show absorbLoop (fuel + 1) a m = m by simp [absorbLoop, hlk, hlkn, hfree]]
          exact Or.inl rfl
        | some nb =>
          by_cases hnf : nb.free
          · have hstep : absorbLoop (fuel + 1) a m = absorbLoop fuel a
                (eraseB (setB m a { blk with size := blk.size + headerSize + nb.size, last := nb.last }) (a + headerSize + blk.size)) := by
              simp [absorbLoop, hlk, hlkn, hfree, hnf]
            rw [hstep]
            rcases ih a _ x hx with hh | hh
            · rw [hh, lookupB_eraseB]
              by_cases hxn : x = a + headerSize + blk.size
              · rw [if_pos hxn]; exact Or.inr rfl
              · rw [if_neg hxn, lookupB_setB_ne hx]; exact Or.inl rfl
            · exact Or.inr hh
          · rw [show absorbLoop (fuel + 1) a m = m by simp [absorbLoop, hlk, hlkn, hfree, hnf]]
            exact Or.inl rfl
      · rw [show absorbLoop (fuel + 1) a m = m by simp [absorbLoop, hlk, hfree]]
        exact Or.inl rfl

theorem absorbLoop_self :
    ∀ (fuel a : Nat) (m : BlockMap) {blk : MemBlock}, lookupB m a = some blk →
    ∃ blk', lookupB (absorbLoop fuel a m) a = some blk' ∧ blk'.free = blk.free := by
  intro fuel
  induction fuel with
  | zero => intro a m blk hlk; exact ⟨blk, hlk, rfl⟩
  | succ fuel ih =>
    intro a m blk hlk
    by_cases hfree : blk.free
    · cases hlkn : lookupB m (a + headerSize + blk.size) with
      | none =>
        rw [show absorbLoop (fuel + 1) a m = m by simp [absorbLoop, hlk, hlkn, hfree]]
        exact ⟨blk, hlk, rfl⟩
      | some nb =>
        by_cases hnf : nb.free
        · have hstep : absorbLoop (fuel + 1) a m = absorbLoop fuel a
              (eraseB (setB m a { blk with size := blk.size + headerSize + nb.size, last := nb.last }) (a + headerSize + blk.size)) := by
            simp [absorbLoop, hlk, hlkn, hfree, hnf]
          rw [hstep]
          have hlk2 : lookupB (eraseB (setB m a { blk with size := blk.size + headerSize + nb.size, last := nb.last }) (a + headerSize + blk.size)) a = some { blk with size := blk.size + headerSize + nb.size, last := nb.last } := by
            have h16 : headerSize = 16 := rfl
            rw [lookupB_eraseB, if_neg (by omega)]
            exact lookupB_setB_self hlk
          obtain ⟨blk', hb1, hb2⟩ := ih a _ hlk2
          exact ⟨blk', hb1, hb2⟩
        · rw [show absorbLoop (fuel + 1) a m = m by simp [absorbLoop, hlk, hlkn, hfree, hnf]]
          exact ⟨blk, hlk, rfl⟩
    · rw [show absorbLoop (fuel + 1) a m = m by simp [absorbLoop, hlk, hfree]]
      exact ⟨blk, hlk, rfl⟩

theorem absorbLoop_eq_of_none {fuel a : Nat} {m : BlockMap}
    (hlk : lookupB m a = none) : absorbLoop fuel a m = m := by
  cases fuel with
  | zero => rfl
  | succ fuel => simp [absorbLoop, hlk]

theorem absorbLoop_eq_of_not_free {fuel a : Nat} {m : BlockMap} {blk : MemBlock}
    (hlk : lookupB m a = some blk) (hfree : ¬ blk.free = true) :
    absorbLoop fuel a m = m := by
  cases fuel with
  | zero => rfl
  | succ fuel => simp [absorbLoop, hlk, hfree]

theorem absorbLoop_post :
    ∀ (fuel : Nat) (m : BlockMap) (a : Nat) (blk : MemBlock),
    lengthB m < fuel → lookupB m a = some blk → blk.free = true →
    ∀ bb, lookupB (absorbLoop fuel a m) a = some bb →
    ¬ freePresent (absorbLoop fuel a m) (a + headerSize + bb.size) := by
  intro fuel
  induction fuel with
  | zero => intro m a blk hf; omega
  | succ fuel ih =>
    intro m a blk hf hlk hfree bb hbb hfp
    have h16 : headerSize = 16 := rfl
    cases hlkn : lookupB m (a + headerSize + blk.size) with
    | none =>
      have hres : absorbLoop (fuel + 1) a m = m := by
        simp [absorbLoop, hlk, hlkn, hfree]
      rw [hres] at hbb hfp
      rw [hlk] at hbb
      cases hbb
      obtain ⟨c, hc, _⟩ := hfp
      rw [hlkn] at hc
      exact absurd hc (by simp)
    | some nb =>
      by_cases hnf : nb.free
      · have hstep : absorbLoop (fuel + 1) a m = absorbLoop fuel a
            (eraseB (setB m a { blk with size := blk.size + headerSize + nb.size, last := nb.last }) (a + headerSize + blk.size)) := by
          simp [absorbLoop, hlk, hlkn, hfree, hnf]
        have hlk2 : lookupB (eraseB (setB m a { blk with size := blk.size + headerSize + nb.size, last := nb.last }) (a + headerSize + blk.size)) a = some { blk with size := blk.size + headerSize + nb.size, last := nb.last } := by
          rw [lookupB_eraseB, if_neg (by omega)]
          exact lookupB_setB_self hlk
        have hlen : lengthB (eraseB (setB m a { blk with size := blk.size + headerSize + nb.size, last := nb.last }) (a + headerSize + blk.size)) < fuel := by
          have hmem : (a + headerSize + blk.size) ∈ keysOf (setB m a { blk with size := blk.size + headerSize + nb.size, last := nb.last }) := by
            rw [keysOf_setB]
            exact mem_keysOf_of_lookupB hlkn
          have := lengthB_eraseB_lt hmem
          rw [lengthB_setB] at this
          omega
        rw [hstep] at hbb hfp
        exact ih _ a _ hlen hlk2 hfree bb hbb hfp
      · have hres : absorbLoop (fuel + 1) a m = m := by
          simp [absorbLoop, hlk, hlkn, hfree, hnf]
        rw [hres] at hbb hfp
        rw [hlk] at hbb
        cases hbb
        obtain ⟨c, hc, hcf⟩ := hfp
        rw [hlkn] at hc
        cases hc
        exact hnf hcf

theorem mergeInv_step {fuel : Nat} {m : BlockMap} {visited : List Nat} {b : Nat}
    (hinv : mergeInv m visited) (hfuel : lengthB m < fuel) :
    mergeInv (absorbLoop fuel b m) (b :: visited) := by
  intro a ha ba hlk hfree hfp
  by_cases hab : a = b
  · subst hab
    cases hlk0 : lookupB m a with
    | none =>
      rw [absorbLoop_eq_of_none hlk0] at hlk
      rw [hlk0] at hlk
      exact absurd hlk (by simp)
    | some blk =>
      by_cases hbf : blk.free = true
      · exact absorbLoop_post fuel m a blk hfuel hlk0 hbf ba hlk hfp
      · rw [absorbLoop_eq_of_not_free hlk0 hbf] at hlk
        rw [hlk0] at hlk
        cases hlk
        exact hbf hfree
  · have ha2 : a ∈ visited := by
      rcases List.mem_cons.1 ha with hh | hh
      · exact absurd hh hab
      · exact hh
    have hlkm : lookupB m a = some ba := by
      rcases absorbLoop_lookup_other fuel b m a hab with hh | hh
      · rw [← hh]; exact hlk
      · rw [hlk] at hh; exact absurd hh (by simp)
    obtain ⟨c, hc, hcf⟩ := hfp
    by_cases hsb : a + headerSize + ba.size = b
    · rw [hsb] at hc
      cases hlkb : lookupB m b with
      | none =>
        rw [absorbLoop_eq_of_none hlkb] at hc
        rw [hlkb] at hc
        exact absurd hc (by simp)
      | some blkb =>
        obtain ⟨blk', hb1, hb2⟩ := absorbLoop_self fuel b m hlkb
        rw [hc] at hb1
        cases hb1
        have hbf : blkb.free = true := by rw [← hb2]; exact hcf
        exact hinv a ha2 ba hlkm hfree ⟨blkb, by rw [hsb]; exact hlkb, hbf⟩
    · rcases absorbLoop_lookup_other fuel b m _ hsb with hh | hh
      · rw [hh] at hc
        exact hinv a ha2 ba hlkm hfree ⟨c, hc, hcf⟩
      · rw [hc] at hh
        exact absurd hh (by simp)

theorem mergeInv_mono {m : BlockMap} {v1 v2 : List Nat}
    (hsub : ∀ a, a ∈ v1 → a ∈ v2) (h : mergeInv m v2) : mergeInv m v1 :=
  fun a ha => h a (hsub a ha)

theorem merge_pass_inv : ∀ (order : List Nat) (m : BlockMap) (visited : List Nat),
    mergeInv m visited →
    mergeInv (merge_free_blocks order m) (visited ++ order) := by
  intro order
  induction order with
  | nil => intro m visited hinv; simpa using hinv
  | cons b rest ih =>
    intro m visited hinv
    have hstep := @mergeInv_step (lengthB m + 1) m visited b hinv (by omega)
    have := ih _ (b :: visited) hstep
    refine mergeInv_mono ?_ this
    intro a ha
    simp only [List.mem_append, List.mem_cons] at ha ⊢
    tauto

theorem absorbLoop_keys_sub :
    ∀ (fuel a : Nat) (m : BlockMap) (x : Nat),
    x ∈ keysOf (absorbLoop fuel a m) → x ∈ keysOf m := by
  intro fuel
  induction fuel with
  | zero => intro a m x hx; exact hx
  | succ fuel ih =>
    intro a m x hx
    cases hlk : lookupB m a with
    | none => rw [absorbLoop_eq_of_none hlk] at hx; exact hx
    | some blk =>
      by_cases hfree : blk.free = true
      · cases hlkn : lookupB m (a + headerSize + blk.size) with
        | none =>
          rw [show absorbLoop (fuel + 1) a m = m by simp [absorbLoop, hlk, hlkn, hfree]] at hx
          exact hx
        | some nb =>
          by_cases hnf : nb.free
          · rw [show absorbLoop (fuel + 1) a m = absorbLoop fuel a
                (eraseB (setB m a { blk with size := blk.size + headerSize + nb.size, last := nb.last }) (a + headerSize + blk.size)) by
              simp [absorbLoop, hlk, hlkn, hfree, hnf]] at hx
            have := ih a _ x hx
            rw [mem_keys_eraseB, keysOf_setB] at this
            exact this.1
          · rw [show absorbLoop (fuel + 1) a m = m by simp [absorbLoop, hlk, hlkn, hfree, hnf]] at hx
            exact hx
      · rw [absorbLoop_eq_of_not_free hlk hfree] at hx
        exact hx

theorem merge_keys_sub : ∀ (order : List Nat) (m : BlockMap) (x : Nat),
    x ∈ keysOf (merge_free_blocks order m) → x ∈ keysOf m := by
  intro order
  induction order with
  | nil => intro m x hx; exact hx
  | cons b rest ih =>
    intro m x hx
    exact absorbLoop_keys_sub _ _ _ _ (ih _ x hx)

/-- After a `mem_free` that actually marks a block free (non-null pointer,
header present in the index), the full merge pass leaves no two
address-adjacent free blocks, whatever iteration order the hash map
produces, as long as it visits every entry. -/
theorem mem_free_noAdjFree {s : AllocState} {order : List Nat} {ptr : Nat}
    {blk : MemBlock} (hp : ptr ≠ 0)
    (hlk : lookupB s.block_map (ptr - headerSize) = some blk)
    (hcover : ∀ k ∈ keysOf s.block_map, k ∈ order) :
    noAdjFree (mem_free order ptr s).block_map := by
  have hres : mem_free order ptr s = { s with block_map := merge_free_blocks order (setB s.block_map (ptr - headerSize) { blk with free := true }) } := by
    simp [mem_free, hp, hlk]
  rw [hres]
  intro a ba hlka hfree
  have hinv0 : mergeInv (setB s.block_map (ptr - headerSize) { blk with free := true }) [] := by
    intro x hx
    simp at hx
  have hfin := merge_pass_inv order _ [] hinv0
  have hk : a ∈ keysOf (merge_free_blocks order (setB s.block_map (ptr - headerSize) { blk with free := true })) :=
    mem_keysOf_of_lookupB hlka
  have hk2 := merge_keys_sub order _ a hk
  rw [keysOf_setB] at hk2
  exact hfin a (by simpa using hcover a hk2) ba hlka hfree

/-! ## Soundness of the executable well-formedness checker -/

theorem chainList_sound : ∀ (fuel : Nat) (m : BlockMap) (addr e : Nat)
    (l : List Nat), chainList fuel m addr e = some l → Chain m e addr l := by
  intro fuel
  induction fuel with
  | zero => intro m addr e l h; simp [chainList] at h
  | succ fuel ih =>
    intro m addr e l h
    by_cases hae : addr = e
    · rw [show chainList (fuel + 1) m addr e = some [] by simp [chainList, hae]] at h
      cases h
      subst hae
      exact Chain.nil
    · by_cases hlt : e < addr
      · rw [show chainList (fuel + 1) m addr e = none by simp [chainList, hae, hlt]] at h
        simp at h
      · cases hlk : lookupB m addr with
        | none =>
          rw [show chainList (fuel + 1) m addr e = none by simp [chainList, hae, hlt, hlk]] at h
          simp at h
        | some b =>
          by_cases hcond : (b.size % 4 == 0 && (b.last == decide (addr + headerSize + b.size = e))) = true
          · rw [show chainList (fuel + 1) m addr e = Option.map (fun l2 => addr :: l2) (chainList fuel m (addr + headerSize + b.size) e) by simp [chainList, hae, hlt, hlk, hcond]] at h
            cases hrec : chainList fuel m (addr + headerSize + b.size) e with
            | none => rw [hrec] at h; simp at h
            | some l2 =>
              rw [hrec] at h
              simp only [Option.map_some', Option.some.injEq] at h
              subst h
              simp only [Bool.and_eq_true, beq_iff_eq] at hcond
              refine Chain.cons hlk (by omega) hcond.1 ?_ (ih m _ e l2 hrec)
              rw [hcond.2]
              simp
          · rw [show chainList (fuel + 1) m addr e = none by simp [chainList, hae, hlt, hlk, hcond]] at h
            simp at h

theorem pairwiseSepB_sound : ∀ (al : List MemArena), pairwiseSepB al = true →
    al.Pairwise Separated := by
  intro al
  induction al with
  | nil => intro _; exact List.Pairwise.nil
  | cons a rest ih =>
    intro h
    simp only [pairwiseSepB, Bool.and_eq_true, List.all_eq_true] at h
    refine List.pairwise_cons.2 ⟨?_, ih h.2⟩
    intro b hb
    have := h.1 b hb
    simp only [sepB, Bool.or_eq_true, decide_eq_true_eq] at this
    exact this

theorem wfCheck_sound {al : List MemArena} {m : BlockMap}
    (h : wfCheck al m = true) : WFS al m := by
  unfold wfCheck at h
  simp only [Bool.and_eq_true] at h
  obtain ⟨⟨⟨⟨h1, h2⟩, h3⟩, h4⟩, h5⟩ := h
  refine ⟨of_decide_eq_true h1, ?_, ?_, ?_, pairwiseSepB_sound al h3⟩
  · intro ar har
    rw [List.all_eq_true] at h2
    have := h2 ar har
    simp only [arenaOkB, Bool.and_eq_true, bne_iff_ne, beq_iff_eq] at this
    exact ⟨this.1.1, this.1.2, this.2⟩
  · intro ar har
    rw [List.all_eq_true] at h4
    have := h4 ar har
    cases hcl : chainList (lengthB m + 1) m ar.base (ar.base + ar.size) with
    | none => rw [hcl] at this; simp at this
    | some l => exact ⟨l, chainList_sound _ _ _ _ _ hcl⟩
  · intro x hx
    rw [List.all_eq_true] at h5
    have := h5 x hx
    rw [List.any_eq_true] at this
    obtain ⟨ar, har, hcl⟩ := this
    cases hcl2 : chainList (lengthB m + 1) m ar.base (ar.base + ar.size) with
    | none => rw [hcl2] at hcl; simp at hcl
    | some l =>
      rw [hcl2] at hcl
      simp only [decide_eq_true_eq] at hcl
      exact ⟨ar, har, l, chainList_sound _ _ _ _ _ hcl2, hcl⟩

/-! ## Unconditional facts about `mem_alloc` -/

theorem wf_of_check {s : AllocState}
    (h : wfCheck s.arena_list s.block_map = true) : WF s :=
  wfCheck_sound h

theorem mem_alloc_create_success {s : AllocState} (base : Nat) {n : Nat}
    (hn : n ≠ 0)
    (heq : allocInArenas s.arena_list (align_mem_size n) s.block_map =
      (none, s.block_map)) :
    mem_alloc (some base) n s = (some (base + headerSize), { s with arena_list := ⟨arenaSizeFor n, base⟩ :: s.arena_list, block_map := markUsed (split_mem_block (insertB s.block_map base ⟨arenaSizeFor n - headerSize, true, true, true⟩) base (align_mem_size n)) base }) := by
  have h16 : headerSize = 16 := rfl
  have hid : align_mem_size (align_mem_size n) = align_mem_size n := align_idem n
  have haszge : default_arena_size ≤ arenaSizeFor n := arenaSizeFor_ge n
  have hd : default_arena_size = 4096 := rfl
  have haszreq : align_mem_size n + headerSize ≤ arenaSizeFor n :=
    arenaSizeFor_ge_req n
  have hlkb : lookupB (insertB s.block_map base
      ⟨arenaSizeFor n - headerSize, true, true, true⟩) base =
      some ⟨arenaSizeFor n - headerSize, true, true, true⟩ := by
    rw [lookupB_insertB, if_pos rfl]
  have hszle : align_mem_size n ≤ arenaSizeFor n - headerSize := by omega
  have hstep0 : allocLoop (lengthB (insertB s.block_map base
      ⟨arenaSizeFor n - headerSize, true, true, true⟩) + 1)
      (base + arenaSizeFor n) base (align_mem_size n)
      (insertB s.block_map base ⟨arenaSizeFor n - headerSize, true, true, true⟩) =
      (some (base + headerSize),
        markUsed (split_mem_block (insertB s.block_map base
          ⟨arenaSizeFor n - headerSize, true, true, true⟩) base
          (align_mem_size n)) base) :=
    allocLoop_head_fit (by omega) hlkb rfl hszle
  have hstep : allocate_memory_block ⟨arenaSizeFor n, base⟩ (align_mem_size n)
      (insertB s.block_map base ⟨arenaSizeFor n - headerSize, true, true, true⟩) =
      (some (base + headerSize),
        markUsed (split_mem_block (insertB s.block_map base
          ⟨arenaSizeFor n - headerSize, true, true, true⟩) base
          (align_mem_size n)) base) := by
    unfold allocate_memory_block
    rw [hid]
    exact hstep0
  have harena : create_new_arena (some base) (align_mem_size n + headerSize)
      default_arena_size s.arena_list s.block_map =
      (some ⟨arenaSizeFor n, base⟩, ⟨arenaSizeFor n, base⟩ :: s.arena_list,
        insertB s.block_map base
          ⟨arenaSizeFor n - headerSize, true, true, true⟩) := rfl
  simp [mem_alloc, hn, heq, harena, hstep]

theorem mem_alloc_none_eq {os : Option Nat} {n : Nat} {s : AllocState}
    (h : (mem_alloc os n s).1 = none) : (mem_alloc os n s).2 = s := by
  by_cases hn : n = 0
  · subst hn; rfl
  · rcases allocInArenas_cases s.arena_list (align_mem_size n) s.block_map with
      heq | ⟨b, blk, hlkb, hfreeb, hgeb, heq⟩
    · cases os with
      | none =>
        have hres : mem_alloc none n s = (none, s) := by
          simp [mem_alloc, hn, heq, create_new_arena]
        rw [hres]
      | some base =>
        rw [mem_alloc_create_success base hn heq] at h
        simp at h
    · have hres : mem_alloc os n s = (some (b + headerSize), { s with block_map := markUsed (split_mem_block s.block_map b (align_mem_size (align_mem_size n))) b }) := by
        simp [mem_alloc, hn, heq]
      rw [hres] at h
      simp at h

theorem mem_alloc_mem_eq (os : Option Nat) (n : Nat) (s : AllocState) :
    (mem_alloc os n s).2.mem = s.mem := by
  by_cases hn : n = 0
  · subst hn; rfl
  · rcases allocInArenas_cases s.arena_list (align_mem_size n) s.block_map with
      heq | ⟨b, blk, hlkb, hfreeb, hgeb, heq⟩
    · cases os with
      | none =>
        have hres : mem_alloc none n s = (none, s) := by
          simp [mem_alloc, hn, heq, create_new_arena]
        rw [hres]
      | some base =>
        rw [mem_alloc_create_success base hn heq]
    · have hres : mem_alloc os n s = (some (b + headerSize), { s with block_map := markUsed (split_mem_block s.block_map b (align_mem_size (align_mem_size n))) b }) := by
        simp [mem_alloc, hn, heq]
      rw [hres]

/-! ## Claim theorems -/

/-- C1 (counterexample).  The partition invariant is not preserved by every
finite operation sequence: `VirtualAlloc` may return the two page-aligned,
disjoint but address-adjacent regions `65536` and `69632`; after
`mem_alloc(4064)`, `mem_alloc(4064)`, `mem_free(65552)`, `mem_free(69648)`
the merge pass absorbs arena 2's block into arena 1's block (the code never
consults the `last` flag), and the indexed blocks inside arena 1 sum to
`8192 ≠ 4096` while arena 2 contains none at all (`0 ≠ 4096`). -/
theorem C1_counterexample :
    advS4.arena_list = [⟨4096, 69632⟩, ⟨4096, 65536⟩] ∧
    sumInArena ⟨4096, 65536⟩ advS4.block_map ≠ 4096 ∧
    sumInArena ⟨4096, 69632⟩ advS4.block_map ≠ 4096 :=
  ⟨by decide, by decide, by decide⟩

/-- C1 (amended).  Provided every OS region is separated from the existing
arenas (no two arenas address-adjacent, `osOk`), after every finite sequence
of `mem_alloc` / `mem_free` / `mem_realloc` operations the sum of
`header_size + block.size` over all indexed blocks lying inside an arena
equals that arena's total size.  Arena creation, every split and every merge
preserve this (they preserve the `WFS` chain invariant). -/
theorem C1_partition {s : AllocState} (h : Reachable s) :
    ∀ ar ∈ s.arena_list, sumInArena ar s.block_map = ar.size :=
  fun ar har => wfs_sumInArena (reachable_wf h) har

/-- Witness for C1: after one `mem_alloc(100)` from the empty state the
4096-byte arena at `65536` is tiled exactly. -/
theorem C1_partition_witness :
    sumInArena ⟨4096, 65536⟩ ((mem_alloc (some 65536) 100 initState).2).block_map = 4096 :=
  C1_partition (Reachable.step_alloc (some 65536) 100 (Reachable.init (fun _ => 0))
    (by decide)) ⟨4096, 65536⟩ (by decide)

/-- C2.  In a well-formed state, with a valid OS response, every successful
`mem_alloc(n)` (n > 0) returns a 4-byte-aligned payload pointer into a block
now marked in-use with at least `n` payload bytes, whose payload interval is
disjoint from the payload interval of every other indexed block (in
particular every other in-use block). -/
theorem C2_alloc_correct {s s2 : AllocState} {os : Option Nat} {n p : Nat}
    (hwf : WF s) (hos : osOk os (arenaSizeFor n) s.arena_list = true)
    (hn : 0 < n) (hres : mem_alloc os n s = (some p, s2)) :
    p % 4 = 0 ∧
    ∃ blk, lookupB s2.block_map (p - headerSize) = some blk ∧
      blk.free = false ∧ n ≤ blk.size ∧
      ∀ q c, lookupB s2.block_map q = some c → q ≠ p - headerSize →
        c.free = false →
        p + blk.size ≤ q + headerSize ∨ q + headerSize + c.size ≤ p := by
  have h16 : headerSize = 16 := rfl
  obtain ⟨hwf2, hmem, hnone, hsucc⟩ := mem_alloc_spec hwf hos
  have h1 : (mem_alloc os n s).1 = some p := by rw [hres]
  obtain ⟨b, blk', hp, hb4, hlk', hfree', hge', hdisj⟩ := hsucc p h1
  have hs2 : (mem_alloc os n s).2 = s2 := by rw [hres]
  rw [hs2] at hwf2 hlk'
  have hpb : p - headerSize = b := by omega
  refine ⟨by omega, blk', by rw [hpb]; exact hlk', hfree',
    le_trans (align_ge n) hge', ?_⟩
  intro q c hq hqne _
  have hqb : b ≠ q := by rw [hpb] at hqne; exact fun hh => hqne hh.symm
  have hd := WFS.foot_disjoint hwf2 hlk' hq hqb
  rcases hd with hh | hh
  · left; omega
  · right; omega

/-- Witness for C2: `mem_alloc(100)` from the empty state returns `65552`,
which is 4-byte aligned. -/
theorem C2_witness : (65552 : Nat) % 4 = 0 :=
  (C2_alloc_correct (wf_init (fun _ => 0)) (by decide) (by decide)
    (rfl : mem_alloc (some 65536) 100 initState =
      (some 65552, (mem_alloc (some 65536) 100 initState).2))).1

/-- C3 (counterexample).  "Immediately after any release(p) call returns"
is too strong: a release of the null pointer runs no merge pass, and the
in-place shrink path of `mem_realloc` creates adjacent free blocks that
such a no-op release leaves in place.  After `mem_alloc(100)`,
`mem_realloc(65552, 4)` (which carves a free 80-byte block at `65556`) and
`mem_free(null)`, the free blocks at `65556` and `65652 = 65556 + 16 + 80`
are address-adjacent. -/
theorem C3_counterexample :
    lookupB shrinkFreedS.block_map 65556 = some ⟨80, true, false, false⟩ ∧
    lookupB shrinkFreedS.block_map (65556 + headerSize + 80) =
      some ⟨3964, true, false, true⟩ ∧
    ¬ noAdjFree shrinkFreedS.block_map := by
  refine ⟨by decide, by decide, fun h => ?_⟩
  exact h 65556 ⟨80, true, false, false⟩ (by decide) rfl
    ⟨⟨3964, true, false, true⟩, by decide, rfl⟩

/-- C3 (amended).  Whenever `mem_free` actually frees a block (non-null
pointer whose header is indexed), the full-index merge pass it triggers
leaves no two address-adjacent free blocks — for every iteration order that
visits all entries of the index. -/
theorem C3_merge_complete {s : AllocState} {order : List Nat} {ptr : Nat}
    {blk : MemBlock} (hp : ptr ≠ 0)
    (hlk : lookupB s.block_map (ptr - headerSize) = some blk)
    (hcover : ∀ k ∈ keysOf s.block_map, k ∈ order) :
    noAdjFree (mem_free order ptr s).block_map :=
  mem_free_noAdjFree hp hlk hcover

/-- Witness for C3: freeing the 100-byte block of `allocS100` leaves no
adjacent free pair. -/
theorem C3_witness : noAdjFree (mem_free [65652, 65536] 65552 allocS100).block_map :=
  C3_merge_complete (by decide)
    (by decide : lookupB allocS100.block_map (65552 - headerSize) =
      some ⟨100, false, true, false⟩)
    (by decide)

/-- C4 (counterexample).  `mem_realloc` never grows a block in place by
absorbing the following free space: in `fitS3` the block at `65536` has
size 100 and is immediately followed by a free block of 3964 bytes (far
more than 150 needs), yet `mem_realloc(65552, 150)` returns the different
pointer `65668`. -/
theorem C4_counterexample :
    lookupB fitS3.block_map 65536 = some ⟨100, false, true, false⟩ ∧
    lookupB fitS3.block_map (65536 + headerSize + 100) =
      some ⟨3964, true, false, true⟩ ∧
    (mem_realloc none [65652, 65536] 65552 150 fitS3).1 = some 65668 ∧
    (65668 : Nat) ≠ 65552 :=
  ⟨by decide, by decide, by decide, by decide⟩

/-- C4 (amended).  `mem_realloc` keeps the pointer exactly when the block's
current recorded size already covers the aligned request (it then splits in
place); when the current size is smaller — releasing an adjacent following
block never raises it — a successful reallocation always returns a
different pointer. -/
theorem C4_realloc_inplace {s : AllocState} (os : Option Nat) (order : List Nat)
    {ptr n : Nat} {blk : MemBlock} (hp : ptr ≠ 0)
    (hlk : lookupB s.block_map (ptr - headerSize) = some blk) :
    (align_mem_size n ≤ blk.size →
      mem_realloc os order ptr n s = (some ptr, { s with block_map := split_mem_block s.block_map (ptr - headerSize) (align_mem_size n) })) ∧
    (blk.size < align_mem_size n → WF s →
      osOk os (arenaSizeFor n) s.arena_list = true →
      ∀ q s2, mem_realloc os order ptr n s = (some q, s2) → q ≠ ptr) := by
  have h16 : headerSize = 16 := rfl
  constructor
  · intro hfit
    simp [mem_realloc, hp, hlk, hfit]
  · intro hlt hwf hos q s2 hres
    have hnofit : ¬ (align_mem_size n ≤ blk.size) := by omega
    cases halloc : mem_alloc os (align_mem_size n) s with
    | mk r s₁ =>
      cases r with
      | none =>
        have hres2 : mem_realloc os order ptr n s = (none, s₁) := by
          simp [mem_realloc, hp, hlk, hnofit, halloc]
        rw [hres2] at hres
        have hcontra : (none : Option Nat) = some q := congrArg Prod.fst hres
        simp at hcontra
      | some q2 =>
        have hres2 : mem_realloc os order ptr n s = (some q2, mem_free order ptr { s₁ with mem := memcpy s₁.mem q2 ptr blk.size }) := by
          simp [mem_realloc, hp, hlk, hnofit, halloc]
        rw [hres2] at hres
        have hq2 : q2 = q := by
          have := congrArg Prod.fst hres
          simpa using this
        subst hq2
        have hos2 : osOk os (arenaSizeFor (align_mem_size n)) s.arena_list = true := by
          rw [arenaSizeFor_align]
          exact hos
        obtain ⟨_, _, _, hsucc⟩ := mem_alloc_spec hwf hos2
        have h1 : (mem_alloc os (align_mem_size n) s).1 = some q2 := by rw [halloc]
        obtain ⟨b, blk', hpq, hb4, _, _, _, hdisj⟩ := hsucc q2 h1
        have hptr16 : 0 < ptr - headerSize :=
          WFS.key_pos hwf (mem_keysOf_of_lookupB hlk)
        have hbne : b ≠ ptr - headerSize := by
          intro hh
          rcases hdisj with hfresh | ⟨blk0, hlk0, _, hge0⟩
          · exact hfresh (hh ▸ mem_keysOf_of_lookupB hlk)
          · rw [hh, hlk] at hlk0
            cases hlk0
            rw [align_idem] at hge0
            omega
        intro heqp
        apply hbne
        omega

/-- Witness for C4: in `fitS3` the relocation indeed returns a pointer
different from the old one. -/
theorem C4_witness : (65668 : Nat) ≠ 65552 :=
  (C4_realloc_inplace none [65652, 65536] (by decide)
      (by decide : lookupB fitS3.block_map (65552 - headerSize) =
        some ⟨100, false, true, false⟩)).2
    (by decide) (wf_of_check (by decide)) (by decide) 65668 _
    (rfl : mem_realloc none [65652, 65536] 65552 150 fitS3 =
      (some 65668, (mem_realloc none [65652, 65536] 65552 150 fitS3).2))

/-- C5 (counterexample).  A merge can cross an arena boundary, and a block
whose `last` flag is true can absorb a successor: `merge_free_blocks` never
consults the `last` flag, so with the two address-adjacent arenas of
`advS3`, the last release makes arena 1's `last`-flagged block (at `65536`,
`last = true`) absorb arena 2's block at `69632 = 65536 + 16 + 4080`, an
address that does not lie in arena 1. -/
theorem C5_counterexample :
    lookupB advS3.block_map 65536 = some ⟨4080, true, true, true⟩ ∧
    advS4.block_map = [(65536, ⟨8176, true, true, true⟩)] ∧
    lookupB advS4.block_map 69632 = none ∧
    ¬ inArena ⟨4096, 65536⟩ (65536 + headerSize + 4080) :=
  ⟨by decide, by decide, by decide, fun h => absurd h.2 (by decide)⟩

/-- C5 (amended).  In a well-formed state (OS regions pairwise separated),
whenever the coalescing pass could absorb — the successor address of a block
holds another indexed block — the absorbing block's `last` flag is false and
both blocks lie in the same arena; hence no merge crosses an arena boundary
and no `last`-flagged block ever absorbs. -/
theorem C5_no_cross_merge {s : AllocState} {a : Nat} {ba c : MemBlock}
    (hwf : WF s) (hlk : lookupB s.block_map a = some ba)
    (hlkn : lookupB s.block_map (a + headerSize + ba.size) = some c) :
    ba.last = false ∧ ∃ ar, ar ∈ s.arena_list ∧ inArena ar a ∧
      inArena ar (a + headerSize + ba.size) := by
  have h16 : headerSize = 16 := rfl
  obtain ⟨ar, har, l, hc, hm⟩ := WFS.covered hwf a (mem_keysOf_of_lookupB hlk)
  have hb := hc.mem_bounds a hm
  have hfe := hc.footEnd_le hm hlk
  have hne : a + headerSize + ba.size ≠ ar.base + ar.size := by
    intro hh
    exact (WFS.end_not_key hwf har) (hh ▸ mem_keysOf_of_lookupB hlkn)
  have hlast := hc.last_iff a hm hlk
  constructor
  · cases hba : ba.last with
    | false => rfl
    | true => exact absurd (hlast.1 hba) hne
  · exact ⟨ar, har, ⟨hb.1, hb.2⟩, ⟨by omega, by omega⟩⟩

/-- Witness for C5: in `allocS100` the in-use block at `65536` is followed
by the indexed block at `65652`; the theorem yields that its `last` flag is
false and both lie in the arena at `65536`. -/
theorem C5_witness : (⟨100, false, true, false⟩ : MemBlock).last = false ∧
    ∃ ar, ar ∈ allocS100.arena_list ∧ inArena ar 65536 ∧
      inArena ar (65536 + headerSize + (⟨100, false, true, false⟩ : MemBlock).size) :=
  C5_no_cross_merge (wf_of_check (by decide))
    (by decide : lookupB allocS100.block_map 65536 =
      some ⟨100, false, true, false⟩)
    (by decide : lookupB allocS100.block_map (65536 + headerSize + 100) =
      some ⟨3964, true, false, true⟩)

/-- C6.  `mem_realloc` is atomic on failure of its fallback allocation: for
a live (in-use, indexed) pointer whose block is smaller than the aligned new
size, if the internal `mem_alloc` fails then `mem_realloc` returns the
failure value and the state — every arena, every header, every payload
byte — is exactly as before the call, so the pointer is still a valid live
allocation. -/
theorem C6_realloc_atomic {s : AllocState} {os : Option Nat} {order : List Nat}
    {ptr n : Nat} {blk : MemBlock} (hp : ptr ≠ 0)
    (hlk : lookupB s.block_map (ptr - headerSize) = some blk)
    (hfree : blk.free = false) (hlt : blk.size < align_mem_size n)
    (hfail : (mem_alloc os (align_mem_size n) s).1 = none) :
    mem_realloc os order ptr n s = (none, s) := by
  have hnofit : ¬ (align_mem_size n ≤ blk.size) := by omega
  cases halloc : mem_alloc os (align_mem_size n) s with
  | mk r s₁ =>
    cases r with
    | some q =>
      rw [halloc] at hfail
      simp at hfail
    | none =>
      have hs : s₁ = s := by
        have := mem_alloc_none_eq hfail
        rw [halloc] at this
        exact this
      subst hs
      simp [mem_realloc, hp, hlk, hnofit, halloc]

/-- Witness for C6: with the arena full (one in-use 4080-byte block) and
`VirtualAlloc` failing, `mem_realloc(65552, 8000)` returns the failure and
the state is untouched. -/
theorem C6_witness : mem_realloc none [] 65552 8000 advS1 = (none, advS1) :=
  C6_realloc_atomic (by decide)
    (by decide : lookupB advS1.block_map (65552 - headerSize) =
      some ⟨4080, false, true, true⟩)
    rfl (by decide) (by decide)

/-- C7.  When `mem_realloc` relocates (current size below the aligned
request and the fallback allocation succeeds at `q`), it copies exactly
`block.size = min(old, new)` bytes from the old payload to the new one,
frees the old block, and returns `q`: every byte `i < block.size` of the
new payload equals the old payload byte.  (`WF s` scopes the statement to
well-formed states, where the size captured before the fallback allocation
agrees with what the C++ code re-reads after it.) -/
theorem C7_realloc_copy {s s₁ : AllocState} {os : Option Nat}
    {order : List Nat} {ptr n q : Nat} {blk : MemBlock} (hwf : WF s)
    (hp : ptr ≠ 0)
    (hlk : lookupB s.block_map (ptr - headerSize) = some blk)
    (hlt : blk.size < align_mem_size n)
    (halloc : mem_alloc os (align_mem_size n) s = (some q, s₁)) :
    mem_realloc os order ptr n s =
      (some q, mem_free order ptr { s₁ with mem := memcpy s₁.mem q ptr blk.size }) ∧
    ∀ i, i < blk.size →
      (mem_realloc os order ptr n s).2.mem (q + i) = s.mem (ptr + i) := by
  have hnofit : ¬ (align_mem_size n ≤ blk.size) := by omega
  have hres : mem_realloc os order ptr n s =
      (some q, mem_free order ptr { s₁ with mem := memcpy s₁.mem q ptr blk.size }) := by
    simp [mem_realloc, hp, hlk, hnofit, halloc]
  refine ⟨hres, ?_⟩
  intro i hi
  rw [hres]
  show (mem_free order ptr { s₁ with mem := memcpy s₁.mem q ptr blk.size }).mem (q + i) =
    s.mem (ptr + i)
  rw [mem_free_mem]
  show memcpy s₁.mem q ptr blk.size (q + i) = s.mem (ptr + i)
  have hmem1 : s₁.mem = s.mem := by
    have := mem_alloc_mem_eq os (align_mem_size n) s
    rw [halloc] at this
    exact this
  unfold memcpy
  rw [if_pos ⟨Nat.le_add_right _ _, by omega⟩, hmem1]
  congr 1
  omega

/-- Witness for C7: starting from payload bytes `a ↦ a % 251`, after
`mem_alloc(50)` and `mem_realloc(65552, 200)` (which relocates to `65620`),
byte 7 of the new payload equals byte 7 of the old payload. -/
theorem C7_witness :
    (mem_realloc none [65604, 65536] 65552 200 patS1).2.mem (65620 + 7) =
      patS1.mem (65552 + 7) :=
  (C7_realloc_copy (wf_of_check (by decide)) (by decide)
      (by decide : lookupB patS1.block_map (65552 - headerSize) =
        some ⟨52, false, true, false⟩)
      (by decide)
      (rfl : mem_alloc none (align_mem_size 200) patS1 =
        (some 65620, (mem_alloc none (align_mem_size 200) patS1).2))).2
    7 (by decide)

/-- C8.  A release of the null pointer, and a release or reallocate of a
non-null pointer whose header address is absent from the index, change
nothing: `mem_free` returns the state unchanged (hence is idempotent on
such pointers and surfaces nothing), and `mem_realloc` returns the null
result without mutating any state. -/
theorem C8_noop_invalid (s : AllocState) (order : List Nat) (os : Option Nat)
    (ptr n : Nat) :
    mem_free order 0 s = s ∧
    (ptr ≠ 0 → lookupB s.block_map (ptr - headerSize) = none →
      mem_free order ptr s = s) ∧
    (ptr ≠ 0 → lookupB s.block_map (ptr - headerSize) = none →
      mem_realloc os order ptr n s = (none, s)) := by
  refine ⟨by simp [mem_free], ?_, ?_⟩
  · intro hp hlk
    simp [mem_free, hp, hlk]
  · intro hp hlk
    simp [mem_realloc, hp, hlk]

/-- Witness for C8: on `allocS100`, releasing null or the foreign pointer
`99999` is a no-op, and reallocating `99999` returns the failure value with
the state unchanged. -/
theorem C8_witness : mem_free [] 0 allocS100 = allocS100 ∧
    mem_free [] 99999 allocS100 = allocS100 ∧
    mem_realloc none [] 99999 64 allocS100 = (none, allocS100) := by
  obtain ⟨h1, h2, h3⟩ := C8_noop_invalid allocS100 [] none 99999 64
  exact ⟨h1, h2 (by decide) (by decide), h3 (by decide) (by decide)⟩

/-- C9.  `mem_alloc(0)` returns the null result in every state, without any
state change: no arena is created, no block split or marked in-use, and the
index is untouched. -/
theorem C9_alloc_zero (os : Option Nat) (s : AllocState) :
    mem_alloc os 0 s = (none, s) := rfl

/-- C10 (counterexample).  `mem_realloc(p, 0)` does not always leave the
block with payload size 0: on a block of size 4 the split does not fire
(`0 + header + 4 ≤ 4` fails) and the size stays 4. -/
theorem C10_counterexample :
    (mem_realloc none [] 65552 0 tinyS).1 = some 65552 ∧
    (mem_realloc none [] 65552 0 tinyS).2.block_map = tinyS.block_map ∧
    lookupB tinyS.block_map 65536 = some ⟨4, false, true, false⟩ :=
  ⟨by decide, by decide, by decide⟩

/-- C10 (amended).  For a non-null pointer with an indexed header,
`mem_realloc(p, 0)` returns `p` itself and never frees the block: the state
only changes by `split_mem_block` with size 0.  When the old size is at
least `header_size + 4` the whole former payload is carved into a new free
block (registered at the old payload address) and the block keeps its
in-use flag with size 0; otherwise nothing changes at all. -/
theorem C10_realloc_zero {s : AllocState} (os : Option Nat) (order : List Nat)
    {ptr : Nat} {blk : MemBlock} (hp : ptr ≠ 0)
    (hlk : lookupB s.block_map (ptr - headerSize) = some blk) :
    mem_realloc os order ptr 0 s = (some ptr, { s with block_map := split_mem_block s.block_map (ptr - headerSize) 0 }) ∧
    (headerSize + 4 ≤ blk.size →
      lookupB (split_mem_block s.block_map (ptr - headerSize) 0) (ptr - headerSize) =
        some { blk with size := 0, last := false } ∧
      lookupB (split_mem_block s.block_map (ptr - headerSize) 0)
          (ptr - headerSize + headerSize) =
        some ⟨blk.size - headerSize, true, false, blk.last⟩) ∧
    (blk.size < headerSize + 4 →
      split_mem_block s.block_map (ptr - headerSize) 0 = s.block_map) := by
  have h16 : headerSize = 16 := rfl
  have hz : align_mem_size 0 = 0 := rfl
  refine ⟨?_, ?_, ?_⟩
  · simp [mem_realloc, hp, hlk, hz]
  · intro hge
    have hcond : align_mem_size 0 + headerSize + 4 ≤ blk.size := by
      rw [hz]; omega
    have heq := split_eq_of_fit 0 hlk hcond
    rw [heq]
    constructor
    · rw [lookupB_insertB, if_neg (by omega), lookupB_setB_self hlk]
      rfl
    · rw [lookupB_insertB, if_pos (by omega)]
      rfl
  · intro hlt
    exact split_eq_of_small 0 hlk (by rw [hz]; omega)

/-- Witness for C10: `mem_realloc(65552, 0)` on the 100-byte block of
`allocS100` carves the whole former payload into a free block of size 84 at
the old payload address `65552`. -/
theorem C10_witness :
    lookupB (split_mem_block allocS100.block_map (65552 - headerSize) 0)
      (65552 - headerSize + headerSize) = some ⟨84, true, false, false⟩ :=
  ((C10_realloc_zero none [] (by decide)
      (by decide : lookupB allocS100.block_map (65552 - headerSize) =
        some ⟨100, false, true, false⟩)).2.1 (by decide)).2
